import Mathlib

/-!
Shallow embedding of `src/llvm_archive_writer/src/archive_writer.rs` (an ar
archive writer derived from LLVM's ArchiveWriter.cpp).  Byte streams are
modelled as `List Nat` (each entry one byte value), Rust `u64`/`u32` values as
`Nat`, `write!` formatting as explicit digit lists, and `io::Result`/panics as
`Except ArchiveError`.  The external `object` crate (used only inside
`get_symbols`) is abstracted by a `parse` function passed as a parameter.
-/

namespace ArWriter

/-- Archive kinds, from the repository's `archive.rs` (declared outside `src/`).
Modelled from the spec: "ArchiveKind: closed variant — Gnu, Gnu64, Bsd, Darwin,
Darwin64, Coff (write-unsupported), AixBig (write-unsupported)". -/
inductive ArchiveKind
  | Gnu
  | Gnu64
  | Bsd
  | Darwin
  | Darwin64
  | Coff
  | AixBig
deriving DecidableEq, Repr

/-- A member to be written, from `archive_writer.rs` (`NewArchiveMember`).
`member_name` holds the UTF-8 bytes of the Rust `String`. -/
structure NewArchiveMember where
  buf : List Nat
  member_name : List Nat
  mtime : Nat
  uid : Nat
  gid : Nat
  perms : Nat
deriving DecidableEq, Repr

/-- Source: `is_darwin`. -/
def is_darwin (kind : ArchiveKind) : Bool :=
  match kind with
  | .Darwin | .Darwin64 => true
  | _ => false

/-- Source: `is_bsd_like`.  The Rust function panics on `Coff`/`AixBig`
("not supported for writing"); the embedding is total and theorems restrict to
writable kinds via `writable`. -/
def is_bsd_like (kind : ArchiveKind) : Bool :=
  match kind with
  | .Gnu | .Gnu64 => false
  | .Bsd | .Darwin | .Darwin64 => true
  | .Coff | .AixBig => false

/-- The kinds the writer supports (the Rust code panics on the other two). -/
def writable (kind : ArchiveKind) : Bool :=
  match kind with
  | .Coff | .AixBig => false
  | _ => true

/-- Source: `is_64bit_kind`. -/
def is_64bit_kind (kind : ArchiveKind) : Bool :=
  match kind with
  | .Darwin64 | .Gnu64 => true
  | _ => false

/-- Modelled from the spec: the alignment utility of the repository's
`alignment.rs` (declared outside `src/`): "computes padding to a byte
boundary", i.e. how many bytes must be added to `value` to reach a multiple of
`align`. -/
def offset_to_alignment (value align : Nat) : Nat :=
  (align - value % align) % align

/-- Modelled from the spec: `MAX_MEMBER_SIZE` of the repository's `archive.rs`
(declared outside `src/`): "the maximum representable member size".  The
decimal size field of a member header is 10 characters wide, so the largest
representable size is 10^10 - 1. -/
def MAX_MEMBER_SIZE : Nat := 9999999999

/-- Digits of `n` in base `base`, most significant first, fuel-driven so that
the kernel can evaluate it.  Models Rust's `{}`/`{:o}` integer formatting. -/
def digitsAux (base : Nat) : Nat → Nat → List Nat
  | 0, _ => []
  | fuel + 1, n => if n < base then [n] else digitsAux base fuel (n / base) ++ [n % base]

/-- Digit list of `n` in base `base`, most significant first. -/
def natDigits (base n : Nat) : List Nat := digitsAux base (n + 1) n

/-- ASCII bytes of the decimal rendering of `n` (Rust `{}` formatting). -/
def dec (n : Nat) : List Nat := (natDigits 10 n).map (· + 48)

/-- ASCII bytes of the octal rendering of `n` (Rust `{:o}` formatting). -/
def oct (n : Nat) : List Nat := (natDigits 8 n).map (· + 48)

/-- Left-justified space padding to a minimum width `w` (Rust `{:<w}`); longer
content is kept whole, exactly as Rust's formatter does. -/
def padTo (w : Nat) (l : List Nat) : List Nat :=
  l ++ List.replicate (w - l.length) 32

/-- Source: `print_rest_of_member_header`.  The trailing field block shared by
every header: mtime (width 12), uid and gid modulo 1000000 (width 6 each),
octal perms (width 8), size (width 10), backtick, newline. -/
def print_rest_of_member_header (mtime uid gid perms size : Nat) : List Nat :=
  padTo 12 (dec mtime) ++ padTo 6 (dec (uid % 1000000)) ++ padTo 6 (dec (gid % 1000000)) ++
    padTo 8 (oct perms) ++ padTo 10 (dec size) ++ [96, 10]

/-- Source: `print_gnu_small_member_header`: the name with a trailing slash,
left-justified to 16 characters, then the shared trailing block. -/
def print_gnu_small_member_header (name : List Nat) (mtime uid gid perms size : Nat) : List Nat :=
  padTo 16 (name ++ [47]) ++ print_rest_of_member_header mtime uid gid perms size

/-- Source: `print_bsd_member_header`: `#1/` plus the padded name length
(width 13), the shared trailing block (with the padded name length added to
the size), then the literal name and NUL padding so the payload lands on an
8-byte boundary measured from `pos`. -/
def print_bsd_member_header (pos : Nat) (name : List Nat) (mtime uid gid perms size : Nat) :
    List Nat :=
  let pad := offset_to_alignment (pos + 60 + name.length) 8
  let name_with_padding := name.length + pad
  [35, 49, 47] ++ padTo 13 (dec name_with_padding) ++
    print_rest_of_member_header mtime uid gid perms (name_with_padding + size) ++
    name ++ List.replicate pad 0

/-- Source: `use_string_table`: thin mode, a name of 16 bytes or more, or a
name containing a path separator (byte 47, `/`). -/
def use_string_table (thin : Bool) (name : List Nat) : Bool :=
  thin || decide (name.length ≥ 16) || decide (47 ∈ name)

/-- Errors and panics of the writer.  Rust panics (`assert!`, `todo!`) are
modelled as distinguished error values. -/
inductive ArchiveError
  | thinNotGnu
  | todoNow
  | memberTooBig (name : List Nat)
deriving DecidableEq, Repr

/-- Source: `now`: deterministic mode yields timestamp 0; the wall-clock path
is a `todo!()` stub, modelled as the `todoNow` panic. -/
def now (deterministic : Bool) : Except ArchiveError Nat :=
  if deterministic then .ok 0 else .error .todoNow

/-- The long-name string table cursor together with the LLVM-style name
deduplication map (`member_names: HashMap<&str, u64>` modelled as an
association list in insertion order; only `get` and `insert` are used). -/
structure STState where
  string_table : List Nat
  member_names : List (List Nat × Nat)
deriving DecidableEq, Repr

/-- First-match lookup in an association list (models `HashMap::get`). -/
def lookupName : List (List Nat × Nat) → List Nat → Option Nat
  | [], _ => none
  | (k, v) :: rest, n => if k = n then some v else lookupName rest n

/-- Source: `print_member_header`: BSD-like kinds embed the name, GNU kinds
either use the short literal-name header or a `/`-prefixed string table
offset, deduplicating names in non-thin mode. -/
def print_member_header (pos : Nat) (st : STState) (kind : ArchiveKind) (thin : Bool)
    (m : NewArchiveMember) (mtime size : Nat) : List Nat × STState :=
  if is_bsd_like kind then
    (print_bsd_member_header pos m.member_name mtime m.uid m.gid m.perms size, st)
  else if use_string_table thin m.member_name then
    if thin then
      ([47] ++ padTo 15 (dec st.string_table.length) ++
         print_rest_of_member_header mtime m.uid m.gid m.perms size,
       ⟨st.string_table ++ m.member_name ++ [47, 10], st.member_names⟩)
    else
      match lookupName st.member_names m.member_name with
      | some name_pos =>
        ([47] ++ padTo 15 (dec name_pos) ++
           print_rest_of_member_header mtime m.uid m.gid m.perms size, st)
      | none =>
        ([47] ++ padTo 15 (dec st.string_table.length) ++
           print_rest_of_member_header mtime m.uid m.gid m.perms size,
         ⟨st.string_table ++ m.member_name ++ [47, 10],
          st.member_names ++ [(m.member_name, st.string_table.length)]⟩)
  else
    (print_gnu_small_member_header m.member_name mtime m.uid m.gid m.perms size, st)

/-- Source: `MemberData`: per-member symbol name offsets, serialized header,
payload reference and trailing padding. -/
structure MemberData where
  symbols : List Nat
  header : List Nat
  data : List Nat
  padding : List Nat
deriving DecidableEq, Repr

/-- Source: `compute_string_table`: the `//` pseudo-member holding the long
name records, padded to even length with a newline. -/
def compute_string_table (names : List Nat) : MemberData :=
  let size := names.length
  let pad := offset_to_alignment size 2
  { symbols := []
    header := padTo 48 [47, 47] ++ padTo 10 (dec (size + pad)) ++ [96, 10]
    data := names
    padding := if pad ≠ 0 then [10] else [] }

/-- Source: `get_symbols`.  The external `object` crate is abstracted by
`parse`, modelled from the spec: "attempt to parse the payload as an object;
parse failure is non-fatal and yields zero symbols"; `parse buf` returns
`none` on parse failure and otherwise the name bytes of the qualifying
(global, defined) symbols in discovery order.  Qualifying names are appended
NUL-terminated to `sym_names`; the returned offsets are the positions at which
each name was appended. -/
def get_symbols (parse : List Nat → Option (List (List Nat))) (buf : List Nat)
    (sym_names : List Nat) (has_object : Bool) : List Nat × List Nat × Bool :=
  match parse buf with
  | some syms =>
    let r := syms.foldl (fun (acc : List Nat × List Nat) s =>
      (acc.1 ++ [acc.2.length], acc.2 ++ s ++ [0])) ([], sym_names)
    (r.1, r.2, true)
  | none => ([], sym_names, has_object)

/-- Increment the count of `n` in an association list, inserting 1 when the
key is absent (models `*map.entry(n).or_insert(0) += 1` and
`*map.get_mut(n).unwrap() += 1`). -/
def bumpCount : List (List Nat × Nat) → List Nat → List (List Nat × Nat)
  | [], n => [(n, 1)]
  | (k, v) :: rest, n => if k = n then (k, v + 1) :: rest else (k, v) :: bumpCount rest n

/-- Lookup of a count, defaulting to 0 for an absent key. -/
def getCount (l : List (List Nat × Nat)) (n : List Nat) : Nat :=
  (lookupName l n).getD 0

/-- Source: the loop `for (_name, count) in filename_count.iter_mut() { if
*count > 1 { *count = 1; } }`. -/
def clampCounts (l : List (List Nat × Nat)) : List (List Nat × Nat) :=
  l.map (fun kv => if kv.2 > 1 then (kv.1, 1) else kv)

/-- Source: the `filename_count` initialization of `compute_member_data`:
tally every member name, then clamp counts above one back to one. -/
def initCounts (ms : List NewArchiveMember) : List (List Nat × Nat) :=
  clampCounts (ms.foldl (fun acc m => bumpCount acc m.member_name) [])

/-- The payload bytes the writer embeds for a member (empty in thin mode). -/
def member_data_bytes (thin : Bool) (m : NewArchiveMember) : List Nat :=
  if thin then [] else m.buf

/-- Source: the Darwin-only internal payload padding of
`compute_member_data`. -/
def member_padding_of (kind : ArchiveKind) (thin : Bool) (m : NewArchiveMember) : Nat :=
  if is_darwin kind then offset_to_alignment (member_data_bytes thin m).length 8 else 0

/-- The `size` checked against `MAX_MEMBER_SIZE`: payload length plus the
Darwin internal padding. -/
def member_size (kind : ArchiveKind) (thin : Bool) (m : NewArchiveMember) : Nat :=
  (member_data_bytes thin m).length + member_padding_of kind thin m

/-- State threaded through the member loop of `compute_member_data`. -/
structure CMDState where
  pos : Nat
  st : STState
  sym_names : List Nat
  has_object : Bool
  counts : List (List Nat × Nat)
  members : List MemberData
deriving DecidableEq, Repr

/-- The member loop's counter state after one member: in unique-timestamp
mode the per-name count is incremented (`*filename_count.get_mut(..) += 1`). -/
def step_counts (unique_timestamps : Bool) (s : CMDState) (m : NewArchiveMember) :
    List (List Nat × Nat) :=
  if unique_timestamps then bumpCount s.counts m.member_name else s.counts

/-- The mtime stored for a member: the post-increment counter value in
unique-timestamp mode (Darwin + deterministic), the caller's mtime
otherwise. -/
def step_mtime (unique_timestamps : Bool) (s : CMDState) (m : NewArchiveMember) : Nat :=
  if unique_timestamps then getCount (step_counts unique_timestamps s m) m.member_name - 1
  else m.mtime

/-- The trailing padding bytes of a member record: the Darwin internal padding
plus the 2-byte tail alignment, all newline bytes (`PADDING_DATA`). -/
def member_pad_bytes (kind : ArchiveKind) (thin : Bool) (m : NewArchiveMember) : List Nat :=
  List.replicate (member_padding_of kind thin m +
    offset_to_alignment ((member_data_bytes thin m).length + member_padding_of kind thin m) 2) 10

/-- The symbol extraction of one member (skipped when no symbol table is
needed). -/
def step_syms (parse : List Nat → Option (List (List Nat))) (need_symbols thin : Bool)
    (s : CMDState) (m : NewArchiveMember) : List Nat × List Nat × Bool :=
  if need_symbols then get_symbols parse (member_data_bytes thin m) s.sym_names s.has_object
  else ([], s.sym_names, s.has_object)

/-- The member-loop state after successfully processing one member. -/
def step_result (parse : List Nat → Option (List (List Nat))) (kind : ArchiveKind)
    (thin unique_timestamps need_symbols : Bool) (s : CMDState) (m : NewArchiveMember) :
    CMDState :=
  { pos := s.pos + (print_member_header s.pos s.st kind thin m
      (step_mtime unique_timestamps s m) (member_size kind thin m)).1.length +
      (member_data_bytes thin m).length + (member_pad_bytes kind thin m).length
    st := (print_member_header s.pos s.st kind thin m
      (step_mtime unique_timestamps s m) (member_size kind thin m)).2
    sym_names := (step_syms parse need_symbols thin s m).2.1
    has_object := (step_syms parse need_symbols thin s m).2.2
    counts := step_counts unique_timestamps s m
    members := s.members ++ [⟨(step_syms parse need_symbols thin s m).1,
      (print_member_header s.pos s.st kind thin m
        (step_mtime unique_timestamps s m) (member_size kind thin m)).1,
      member_data_bytes thin m, member_pad_bytes kind thin m⟩] }

/-- One iteration of the member loop of `compute_member_data`: compute padding
and the (possibly synthetic Darwin) mtime, enforce the member size limit,
print the header, extract symbols, and accumulate the member data. -/
def compute_member_step (parse : List Nat → Option (List (List Nat))) (kind : ArchiveKind)
    (thin unique_timestamps need_symbols : Bool) (s : CMDState) (m : NewArchiveMember) :
    Except ArchiveError CMDState :=
  if member_size kind thin m > MAX_MEMBER_SIZE then .error (.memberTooBig m.member_name)
  else .ok (step_result parse kind thin unique_timestamps need_symbols s m)

/-- The member loop of `compute_member_data` as structural recursion. -/
def cmd_loop (parse : List Nat → Option (List (List Nat))) (kind : ArchiveKind)
    (thin unique_timestamps need_symbols : Bool) :
    CMDState → List NewArchiveMember → Except ArchiveError CMDState
  | s, [] => .ok s
  | s, m :: rest =>
    match compute_member_step parse kind thin unique_timestamps need_symbols s m with
    | .error e => .error e
    | .ok s' => cmd_loop parse kind thin unique_timestamps need_symbols s' rest

/-- Source: `compute_member_data`.  Returns the member data list, the long
name string table, and the symbol name buffer (with the three-NUL Solaris
fixup when some member parsed as an object but no symbol was extracted). -/
def compute_member_data (parse : List Nat → Option (List (List Nat))) (kind : ArchiveKind)
    (thin deterministic need_symbols : Bool) (new_members : List NewArchiveMember) :
    Except ArchiveError (List MemberData × List Nat × List Nat) :=
  match cmd_loop parse kind thin (deterministic && is_darwin kind) need_symbols
    ⟨0, ⟨[], []⟩, [], false,
      if deterministic && is_darwin kind then initCounts new_members else [], []⟩
    new_members with
  | .error e => .error e
  | .ok s =>
    .ok (s.members, s.st.string_table,
      if s.has_object && s.sym_names.isEmpty then [0, 0, 0] else s.sym_names)

/-- Source: `compute_symbol_table_size_and_pad`: the entry count field, the
offset table (pairs on BSD), the BSD byte-count field, the symbol name buffer,
and the alignment padding (8 bytes BSD-like, 2 bytes GNU). -/
def compute_symbol_table_size_and_pad (kind : ArchiveKind) (num_syms offset_size : Nat)
    (string_table : List Nat) : Nat × Nat :=
  let size := offset_size +
    (if is_bsd_like kind then num_syms * offset_size * 2 else num_syms * offset_size) +
    (if is_bsd_like kind then offset_size else 0) + string_table.length
  let pad := offset_to_alignment size (if is_bsd_like kind then 8 else 2)
  (size + pad, pad)

/-- Bytes of the symbol table pseudo-member name `__.SYMDEF`. -/
def symdefName : List Nat := [95, 95, 46, 83, 89, 77, 68, 69, 70]

/-- Bytes of the symbol table pseudo-member name `__.SYMDEF_64`. -/
def symdef64Name : List Nat := symdefName ++ [95, 54, 52]

/-- Bytes of the GNU 64-bit symbol table pseudo-member name `/SYM64`. -/
def sym64Name : List Nat := [47, 83, 89, 77, 54, 52]

/-- Source: `write_symbol_table_header`: a BSD header named `__.SYMDEF` or
`__.SYMDEF_64`, or a GNU header named `/` or `/SYM64/`, with the `now`
timestamp (which panics outside deterministic mode).  `pos` is the sink
position at which the header starts. -/
def write_symbol_table_header (kind : ArchiveKind) (deterministic : Bool) (size pos : Nat) :
    Except ArchiveError (List Nat) :=
  match now deterministic with
  | .error e => .error e
  | .ok t =>
    if is_bsd_like kind then
      let name := if is_64bit_kind kind then symdef64Name else symdefName
      .ok (print_bsd_member_header pos name t 0 0 0 size)
    else
      let name := if is_64bit_kind kind then sym64Name else []
      .ok (print_gnu_small_member_header name t 0 0 0 size)

/-- Little-endian byte list of `val`, `w` bytes wide. -/
def leBytes (w val : Nat) : List Nat :=
  (List.range w).map (fun i => val / 256 ^ i % 256)

/-- Source: `print_n_bits`: 8 bytes for 64-bit kinds, 4 for 32-bit kinds;
little-endian for BSD-like kinds, big-endian otherwise.  The Rust code
converts through `u32::try_from` on the 32-bit path (panicking above 2^32,
unreachable in practice); the embedding truncates. -/
def print_n_bits (kind : ArchiveKind) (val : Nat) : List Nat :=
  if is_64bit_kind kind then
    if is_bsd_like kind then leBytes 8 val else (leBytes 8 val).reverse
  else
    if is_bsd_like kind then leBytes 4 (val % 2 ^ 32) else (leBytes 4 (val % 2 ^ 32)).reverse

/-- The record length of a member: header, payload and padding. -/
def record_len (m : MemberData) : Nat :=
  m.header.length + m.data.length + m.padding.length

/-- The per-member offset entries of the symbol table: for each symbol of each
member, the BSD name offset (BSD-like only) and the member's start position. -/
def symEntries (kind : ArchiveKind) : List MemberData → Nat → List Nat
  | [], _ => []
  | m :: rest, pos =>
    (m.symbols.map (fun so =>
      (if is_bsd_like kind then print_n_bits kind so else []) ++ print_n_bits kind pos)).flatten ++
      symEntries kind rest (pos + record_len m)

/-- Source: `write_symbol_table`, returning the bytes it appends to the sink
(empty when the table is omitted).  `pos` is the sink position at the call.
On an archive with no extracted symbol names the table is omitted, except on
Darwin where the linker requires its presence. -/
def write_symbol_table (kind : ArchiveKind) (deterministic : Bool)
    (members : List MemberData) (string_table : List Nat) (pos : Nat) :
    Except ArchiveError (List Nat) :=
  if string_table.isEmpty && !is_darwin kind then
    .ok []
  else
    match write_symbol_table_header kind deterministic
      (compute_symbol_table_size_and_pad kind ((members.map (fun m => m.symbols.length)).sum)
        (if is_64bit_kind kind then 8 else 4) string_table).1 pos with
    | .error e => .error e
    | .ok header =>
      .ok (header ++
        (if is_bsd_like kind then
          print_n_bits kind (((members.map (fun m => m.symbols.length)).sum) * 2 *
            (if is_64bit_kind kind then 8 else 4))
        else print_n_bits kind ((members.map (fun m => m.symbols.length)).sum)) ++
        symEntries kind members (pos + header.length +
          (compute_symbol_table_size_and_pad kind
            ((members.map (fun m => m.symbols.length)).sum)
            (if is_64bit_kind kind then 8 else 4) string_table).1) ++
        (if is_bsd_like kind then print_n_bits kind string_table.length else []) ++
        string_table ++
        List.replicate (compute_symbol_table_size_and_pad kind
          ((members.map (fun m => m.symbols.length)).sum)
          (if is_64bit_kind kind then 8 else 4) string_table).2 0)

/-- The 8-byte magic `!<arch>\n`. -/
def magicArch : List Nat := [33, 60, 97, 114, 99, 104, 62, 10]

/-- The 8-byte magic `!<thin>\n`. -/
def magicThin : List Nat := [33, 60, 116, 104, 105, 110, 62, 10]

/-- Source: the tentative 32-bit sizing of `write_archive_to_stream`: the
offset at which the last member would start, computed with 4-byte symbol
entries and the symbol table header rendered at position 0 into a scratch
cursor. -/
def tentative_last_offset (kind : ArchiveKind) (deterministic : Bool)
    (data : List MemberData) (sym_names : List Nat) : Except ArchiveError Nat :=
  let num_syms := (data.map (fun m => m.symbols.length)).sum
  let lastStart := 8 + (data.dropLast.map record_len).sum
  let sp := compute_symbol_table_size_and_pad kind num_syms 4 sym_names
  match write_symbol_table_header kind deterministic sp.1 0 with
  | .error e => .error e
  | .ok tmp => .ok (lastStart + tmp.length + sp.1)

/-- Source: the `SYM64_THRESHOLD` kind upgrade of `write_archive_to_stream`:
when the tentative last member offset reaches 2^32, Darwin becomes Darwin64
and every other kind becomes Gnu64. -/
def upgraded_kind (kind : ArchiveKind) (deterministic : Bool)
    (data : List MemberData) (sym_names : List Nat) : Except ArchiveError ArchiveKind :=
  match tentative_last_offset kind deterministic data sym_names with
  | .error e => .error e
  | .ok last_offset =>
    .ok (if last_offset ≥ 2 ^ 32 then (if kind = .Darwin then .Darwin64 else .Gnu64) else kind)

/-- Source: `write_archive_to_stream`.  `w` is the current content of the
output sink; on failure the error carries the sink content at the moment of
failure, so "no byte written before the error" is a provable statement.  On
success the full sink content is returned. -/
def write_archive_to_stream (parse : List Nat → Option (List (List Nat))) (w : List Nat)
    (new_members : List NewArchiveMember) (write_symtab : Bool) (kind : ArchiveKind)
    (deterministic thin : Bool) : Except (ArchiveError × List Nat) (List Nat) :=
  if thin && is_bsd_like kind then .error (.thinNotGnu, w)
  else
    match compute_member_data parse kind thin deterministic write_symtab new_members with
    | .error e => .error (e, w)
    | .ok (data0, string_table, sym_names) =>
      let data := if string_table.isEmpty then data0 else compute_string_table string_table :: data0
      match (if write_symtab then upgraded_kind kind deterministic data sym_names
             else .ok kind : Except ArchiveError ArchiveKind) with
      | .error e => .error (e, w)
      | .ok kind' =>
        let w1 := w ++ (if thin then magicThin else magicArch)
        match (if write_symtab then write_symbol_table kind' deterministic data sym_names w1.length
               else .ok [] : Except ArchiveError (List Nat)) with
        | .error e => .error (e, w1)
        | .ok chunk =>
          .ok (w1 ++ chunk ++ (data.map (fun m => m.header ++ m.data ++ m.padding)).flatten)

/-- The number of members of `ms` whose name is `n` (specification helper used
to state the Darwin synthetic timestamp behaviour). -/
def countName (ms : List NewArchiveMember) (n : List Nat) : Nat :=
  (ms.filter (fun m => m.member_name == n)).length

/-! ### Basic lemmas about formatting helpers -/

theorem padTo_length (w : Nat) (l : List Nat) : (padTo w l).length = max w l.length := by
  simp [padTo]
  omega

theorem padTo_length_of_le {w : Nat} {l : List Nat} (h : l.length ≤ w) :
    (padTo w l).length = w := by
  rw [padTo_length]
  omega

theorem digitsAux_length_le {base : Nat} (_hb : 2 ≤ base) :
    ∀ fuel n k, n < base ^ k → 1 ≤ k → (digitsAux base fuel n).length ≤ k := by
  intro fuel
  induction fuel with
  | zero => intro n k _ _; simp [digitsAux]
  | succ f ih =>
    intro n k hn hk
    by_cases h : n < base
    · simpa [digitsAux, h] using hk
    · push_neg at h
      have hk2 : 2 ≤ k := by
        by_contra hc
        have hk1 : k = 1 := by omega
        subst hk1
        rw [pow_one] at hn
        omega
      have hdiv : n / base < base ^ (k - 1) := by
        apply Nat.div_lt_of_lt_mul
        have hsplit : base ^ k = base * base ^ (k - 1) := by
          conv_lhs => rw [show k = 1 + (k - 1) by omega]
          rw [pow_add, pow_one]
        rw [← hsplit]
        exact hn
      have hrec := ih (n / base) (k - 1) hdiv (by omega)
      rw [digitsAux, if_neg (by omega)]
      simp only [List.length_append, List.length_cons, List.length_nil]
      omega

theorem dec_length_le {n k : Nat} (hn : n < 10 ^ k) (hk : 1 ≤ k) : (dec n).length ≤ k := by
  simpa [dec, natDigits] using digitsAux_length_le (by norm_num) (n + 1) n k hn hk

theorem oct_length_le {n k : Nat} (hn : n < 8 ^ k) (hk : 1 ≤ k) : (oct n).length ≤ k := by
  simpa [oct, natDigits] using digitsAux_length_le (by norm_num) (n + 1) n k hn hk

theorem print_rest_length {mtime uid gid perms size : Nat}
    (hm : (dec mtime).length ≤ 12) (hp : (oct perms).length ≤ 8)
    (hs : (dec size).length ≤ 10) :
    (print_rest_of_member_header mtime uid gid perms size).length = 44 := by
  have hu : (dec (uid % 1000000)).length ≤ 6 :=
    dec_length_le (lt_of_lt_of_le (Nat.mod_lt _ (by norm_num)) (by norm_num)) (by norm_num)
  have hg : (dec (gid % 1000000)).length ≤ 6 :=
    dec_length_le (lt_of_lt_of_le (Nat.mod_lt _ (by norm_num)) (by norm_num)) (by norm_num)
  simp [print_rest_of_member_header, padTo_length_of_le, hm, hp, hs, hu, hg]

/-! ### C7: GNU-family member header name encoding -/

/-- C7: for a GNU-family member header, a name under 16 bytes with no path
separator and thin mode off is written literally with a trailing slash,
left-justified to 16 characters; otherwise the header begins with `/` and a
decimal string table offset; and a name qualifies for string table indirection
exactly when it is 16 bytes or longer, contains a path separator, or thin mode
is active. -/
theorem c7_gnu_member_header (pos : Nat) (st : STState) (kind : ArchiveKind) (thin : Bool)
    (m : NewArchiveMember) (mtime size : Nat) (hg : kind = .Gnu ∨ kind = .Gnu64) :
    (use_string_table thin m.member_name = true ↔
      (thin = true ∨ 16 ≤ m.member_name.length ∨ 47 ∈ m.member_name))
    ∧ (use_string_table thin m.member_name = false →
        (print_member_header pos st kind thin m mtime size).1 =
          padTo 16 (m.member_name ++ [47]) ++
            print_rest_of_member_header mtime m.uid m.gid m.perms size)
    ∧ (use_string_table thin m.member_name = true →
        ∃ off, (print_member_header pos st kind thin m mtime size).1 =
          [47] ++ padTo 15 (dec off) ++
            print_rest_of_member_header mtime m.uid m.gid m.perms size) := by
  have hbsd : is_bsd_like kind = false := by
    rcases hg with h | h <;> simp [h, is_bsd_like]
  refine ⟨?_, ?_, ?_⟩
  · simp [use_string_table, or_assoc]
  · intro h
    simp [print_member_header, hbsd, h, print_gnu_small_member_header]
  · intro h
    by_cases ht : thin = true
    · subst ht
      exact ⟨st.string_table.length, by simp [print_member_header, hbsd, h]⟩
    · simp only [Bool.not_eq_true] at ht
      subst ht
      cases hlk : lookupName st.member_names m.member_name with
      | some p =>
        exact ⟨p, by simp [print_member_header, hbsd, h, hlk]⟩
      | none =>
        exact ⟨st.string_table.length, by simp [print_member_header, hbsd, h, hlk]⟩

/-- Witness for C7: a one-byte name in non-thin GNU mode is written as the
short literal header. -/
theorem c7_gnu_member_header_witness :
    (print_member_header 0 ⟨[], []⟩ .Gnu false ⟨[], [97], 1, 2, 3, 4⟩ 5 6).1 =
      padTo 16 ([97] ++ [47]) ++ print_rest_of_member_header 5 2 3 4 6 :=
  (c7_gnu_member_header 0 ⟨[], []⟩ .Gnu false ⟨[], [97], 1, 2, 3, 4⟩ 5 6 (Or.inl rfl)).2.1
    (by decide)

/-! ### C9: the shared trailing field block -/

/-- C9: every member header of every family carries the shared trailing field
block (mtime, uid mod 1000000 in a 6-character field, gid mod 1000000 in a
6-character field, octal perms, size, backtick, newline); GNU headers end with
it, BSD headers follow it with the embedded name and NUL padding (counted into
the size field); uid/gid of one million or more are truncated by the modulo
rather than rejected. -/
theorem c9_trailing_field_block (pos : Nat) (st : STState) (kind : ArchiveKind) (thin : Bool)
    (m : NewArchiveMember) (mtime size : Nat) (_hk : writable kind = true) :
    (∃ pre sz tail, (print_member_header pos st kind thin m mtime size).1 =
        pre ++ print_rest_of_member_header mtime m.uid m.gid m.perms sz ++ tail
      ∧ (is_bsd_like kind = false → tail = [] ∧ sz = size)
      ∧ (is_bsd_like kind = true → ∃ padn, tail = m.member_name ++ List.replicate padn 0))
    ∧ (padTo 6 (dec (m.uid % 1000000))).length = 6
    ∧ (padTo 6 (dec (m.gid % 1000000))).length = 6
    ∧ print_rest_of_member_header mtime m.uid m.gid m.perms size =
        print_rest_of_member_header mtime (m.uid % 1000000) (m.gid % 1000000) m.perms size := by
  refine ⟨?_, ?_, ?_, ?_⟩
  · by_cases hbsd : is_bsd_like kind
    · refine ⟨[35, 49, 47] ++
        padTo 13 (dec (m.member_name.length +
          offset_to_alignment (pos + 60 + m.member_name.length) 8)),
        (m.member_name.length + offset_to_alignment (pos + 60 + m.member_name.length) 8) + size,
        m.member_name ++
          List.replicate (offset_to_alignment (pos + 60 + m.member_name.length) 8) 0,
        ?_, by simp [hbsd], fun _ => ⟨_, rfl⟩⟩
      simp [print_member_header, hbsd, print_bsd_member_header, List.append_assoc]
    · simp only [Bool.not_eq_true] at hbsd
      by_cases hust : use_string_table thin m.member_name = true
      · by_cases ht : thin = true
        · subst ht
          refine ⟨[47] ++ padTo 15 (dec st.string_table.length), size, [], ?_,
            fun _ => ⟨rfl, rfl⟩, by simp [hbsd]⟩
          simp [print_member_header, hbsd, hust, List.append_assoc]
        · simp only [Bool.not_eq_true] at ht
          subst ht
          cases hlk : lookupName st.member_names m.member_name with
          | some p =>
            refine ⟨[47] ++ padTo 15 (dec p), size, [], ?_,
              fun _ => ⟨rfl, rfl⟩, by simp [hbsd]⟩
            simp [print_member_header, hbsd, hust, hlk, List.append_assoc]
          | none =>
            refine ⟨[47] ++ padTo 15 (dec st.string_table.length), size, [], ?_,
              fun _ => ⟨rfl, rfl⟩, by simp [hbsd]⟩
            simp [print_member_header, hbsd, hust, hlk, List.append_assoc]
      · refine ⟨padTo 16 (m.member_name ++ [47]), size, [], ?_,
          fun _ => ⟨rfl, rfl⟩, by simp [hbsd]⟩
        simp [print_member_header, hbsd, hust, print_gnu_small_member_header,
          List.append_assoc]
  · exact padTo_length_of_le
      (dec_length_le (lt_of_lt_of_le (Nat.mod_lt _ (by norm_num)) (by norm_num)) (by norm_num))
  · exact padTo_length_of_le
      (dec_length_le (lt_of_lt_of_le (Nat.mod_lt _ (by norm_num)) (by norm_num)) (by norm_num))
  · unfold print_rest_of_member_header
    rw [Nat.mod_mod_of_dvd _ dvd_rfl, Nat.mod_mod_of_dvd _ dvd_rfl]

/-- Witness for C9: the trailing block of a concrete BSD header truncates a
uid of 7000000 by the modulo. -/
theorem c9_trailing_field_block_witness :
    print_rest_of_member_header 5 7000000 3 4 6 =
      print_rest_of_member_header 5 (7000000 % 1000000) (3 % 1000000) 4 6 :=
  (c9_trailing_field_block 0 ⟨[], []⟩ .Bsd false ⟨[], [97], 5, 7000000, 3, 4⟩ 5 6
    (by decide)).2.2.2

/-! ### C2: two-phase 32/64-bit sizing -/

theorem print_n_bits_length_64 {kind : ArchiveKind} (h : is_64bit_kind kind = true) (v : Nat) :
    (print_n_bits kind v).length = 8 := by
  by_cases hb : is_bsd_like kind <;> simp [print_n_bits, h, hb, leBytes]

/-- C2: with symbol table emission requested, the tentative layout (4-byte
symbol entries) yields the offset `L` at which the last member would start;
when `L` reaches 2^32 the kind is upgraded Gnu to Gnu64 and Darwin to
Darwin64 and the symbol table offsets are then emitted as 8-byte fields; when
`L` is below 2^32 the kind is unchanged. -/
theorem c2_sym64_upgrade (kind : ArchiveKind) (deterministic : Bool)
    (data : List MemberData) (sym_names : List Nat) (L : Nat)
    (hL : tentative_last_offset kind deterministic data sym_names = .ok L) :
    (2 ^ 32 ≤ L → kind = .Gnu →
      upgraded_kind kind deterministic data sym_names = .ok .Gnu64)
    ∧ (2 ^ 32 ≤ L → kind = .Darwin →
      upgraded_kind kind deterministic data sym_names = .ok .Darwin64)
    ∧ (2 ^ 32 ≤ L → (kind = .Gnu ∨ kind = .Darwin) → ∀ k',
        upgraded_kind kind deterministic data sym_names = .ok k' →
        is_64bit_kind k' = true ∧ ∀ v, (print_n_bits k' v).length = 8)
    ∧ (L < 2 ^ 32 → upgraded_kind kind deterministic data sym_names = .ok kind) := by
  have hup : upgraded_kind kind deterministic data sym_names =
      .ok (if 2 ^ 32 ≤ L then (if kind = .Darwin then .Darwin64 else .Gnu64) else kind) := by
    unfold upgraded_kind
    rw [hL]
  refine ⟨?_, ?_, ?_, ?_⟩
  · intro h32 hk
    subst hk
    rw [hup, if_pos h32]
    simp
  · intro h32 hk
    subst hk
    rw [hup, if_pos h32]
    simp
  · intro h32 hk k' hk'
    rw [hup, if_pos h32] at hk'
    rcases hk with h | h <;> subst h <;> simp at hk' <;> subst hk' <;>
      exact ⟨rfl, print_n_bits_length_64 rfl⟩
  · intro h32
    rw [hup, if_neg (by omega)]

/-- Concrete tentative layout computation used by the C2 witness: a GNU
archive of two members whose first payload is `d2` puts the last member at
offset `8 + d2.length + 64` in the tentative 32-bit layout. -/
theorem c2_tentative_concrete (d2 : List Nat) :
    tentative_last_offset .Gnu true [⟨[], [], d2, []⟩, ⟨[], [], [], []⟩] [] =
      .ok (8 + d2.length + 64) := by
  have htmp : write_symbol_table_header .Gnu true 4 0 =
      .ok (print_gnu_small_member_header [] 0 0 0 0 4) := rfl
  have hlen : (print_gnu_small_member_header [] 0 0 0 0 4).length = 60 := by decide
  unfold tentative_last_offset
  simp [record_len, compute_symbol_table_size_and_pad, is_bsd_like, offset_to_alignment,
    List.dropLast]
  rw [htmp]
  show Except.ok (8 + d2.length + (print_gnu_small_member_header [] 0 0 0 0 4).length + 4) =
    Except.ok (8 + d2.length + 64)
  rw [hlen]

/-- Witness for C2: a member list whose tentative last-member offset exceeds
2^32 upgrades Gnu to Gnu64. -/
theorem c2_sym64_upgrade_witness :
    upgraded_kind .Gnu true [⟨[], [], List.replicate (2 ^ 32) 0, []⟩, ⟨[], [], [], []⟩] [] =
      .ok .Gnu64 := by
  have hL := c2_tentative_concrete (List.replicate (2 ^ 32) 0)
  rw [List.length_replicate] at hL
  exact (c2_sym64_upgrade _ _ _ _ _ hL).1 (by norm_num) rfl

/-! ### C5: thin mode and the BSD precondition -/

theorem member_size_thin (kind : ArchiveKind) (m : NewArchiveMember) :
    member_size kind true m = 0 := by
  by_cases h : is_darwin kind <;>
    simp [member_size, member_data_bytes, member_padding_of, offset_to_alignment, h]

theorem compute_member_step_thin_ok (parse : List Nat → Option (List (List Nat)))
    (kind : ArchiveKind) (ut ns : Bool) (s : CMDState) (m : NewArchiveMember) :
    ∃ s', compute_member_step parse kind true ut ns s m = .ok s' := by
  unfold compute_member_step
  rw [if_neg (by rw [member_size_thin]; simp [MAX_MEMBER_SIZE])]
  exact ⟨_, rfl⟩

theorem cmd_loop_thin_ok (parse : List Nat → Option (List (List Nat))) (kind : ArchiveKind)
    (ut ns : Bool) :
    ∀ (ms : List NewArchiveMember) (s : CMDState),
      ∃ s', cmd_loop parse kind true ut ns s ms = .ok s' := by
  intro ms
  induction ms with
  | nil => intro s; exact ⟨s, rfl⟩
  | cons m rest ih =>
    intro s
    obtain ⟨s1, hs1⟩ := compute_member_step_thin_ok parse kind ut ns s m
    obtain ⟨s2, hs2⟩ := ih s1
    refine ⟨s2, ?_⟩
    unfold cmd_loop
    rw [hs1]
    exact hs2

theorem compute_member_data_thin_ok (parse : List Nat → Option (List (List Nat)))
    (kind : ArchiveKind) (det ns : Bool) (ms : List NewArchiveMember) :
    ∃ r, compute_member_data parse kind true det ns ms = .ok r := by
  obtain ⟨s', hs⟩ := cmd_loop_thin_ok parse kind (det && is_darwin kind) ns ms
    ⟨0, ⟨[], []⟩, [], false, if det && is_darwin kind then initCounts ms else [], []⟩
  unfold compute_member_data
  rw [hs]
  exact ⟨_, rfl⟩

/-- Shape of `write_archive_to_stream` once `compute_member_data` has
succeeded: the kind upgrade, the symbol table chunk, the magic and the member
records, in order. -/
theorem write_archive_to_stream_eq (parse : List Nat → Option (List (List Nat)))
    (w : List Nat) (ms : List NewArchiveMember) (write_symtab : Bool) (kind : ArchiveKind)
    (deterministic thin : Bool) (data0 : List MemberData) (st sy : List Nat)
    (hthin : (thin && is_bsd_like kind) = false)
    (hcmd : compute_member_data parse kind thin deterministic write_symtab ms =
      .ok (data0, st, sy)) :
    write_archive_to_stream parse w ms write_symtab kind deterministic thin =
      (match (if write_symtab then upgraded_kind kind deterministic
          (if st.isEmpty then data0 else compute_string_table st :: data0) sy
        else .ok kind : Except ArchiveError ArchiveKind) with
      | .error e => .error (e, w)
      | .ok kind' =>
        match (if write_symtab then write_symbol_table kind' deterministic
            (if st.isEmpty then data0 else compute_string_table st :: data0) sy
            (w ++ (if thin then magicThin else magicArch)).length
          else .ok [] : Except ArchiveError (List Nat)) with
        | .error e => .error (e, w ++ (if thin then magicThin else magicArch))
        | .ok chunk =>
          .ok ((w ++ (if thin then magicThin else magicArch)) ++ chunk ++
            ((if st.isEmpty then data0 else compute_string_table st :: data0).map
              (fun m => m.header ++ m.data ++ m.padding)).flatten)) := by
  unfold write_archive_to_stream
  rw [if_neg (by simp_all), hcmd]

theorem write_symbol_table_header_det_ok (kind : ArchiveKind) (size pos : Nat) :
    ∃ h, write_symbol_table_header kind true size pos = .ok h := by
  unfold write_symbol_table_header now
  by_cases hb : is_bsd_like kind <;> simp [hb]

theorem upgraded_kind_det_ok (kind : ArchiveKind) (data : List MemberData)
    (sym_names : List Nat) :
    ∃ k', upgraded_kind kind true data sym_names = .ok k' := by
  obtain ⟨h, hh⟩ := write_symbol_table_header_det_ok kind
    (compute_symbol_table_size_and_pad kind
      ((data.map (fun m => m.symbols.length)).sum) 4 sym_names).1 0
  simp only [upgraded_kind, tentative_last_offset]
  rw [hh]
  exact ⟨_, rfl⟩

theorem write_symbol_table_det_ok (kind : ArchiveKind) (members : List MemberData)
    (string_table : List Nat) (pos : Nat) :
    ∃ out, write_symbol_table kind true members string_table pos = .ok out := by
  by_cases hc : (string_table.isEmpty && !is_darwin kind) = true
  · exact ⟨[], by unfold write_symbol_table; rw [if_pos hc]⟩
  · obtain ⟨h, hh⟩ := write_symbol_table_header_det_ok kind
      (compute_symbol_table_size_and_pad kind
        ((members.map (fun m => m.symbols.length)).sum)
        (if is_64bit_kind kind then 8 else 4) string_table).1 pos
    simp only [write_symbol_table]
    rw [if_neg hc, hh]
    exact ⟨_, rfl⟩

/-- C5: requesting thin mode with a BSD-like kind fails (the `assert!`)
before any byte reaches the output sink, which is returned unchanged in the
error; with a GNU-family kind thin mode proceeds (whenever the symbol table
path does not hit the unimplemented wall-clock stub, cf. C4). -/
theorem c5_thin_mode (parse : List Nat → Option (List (List Nat))) (w : List Nat)
    (ms : List NewArchiveMember) (write_symtab : Bool) (kind : ArchiveKind)
    (deterministic : Bool) :
    (is_bsd_like kind = true →
      write_archive_to_stream parse w ms write_symtab kind deterministic true =
        .error (.thinNotGnu, w))
    ∧ ((kind = .Gnu ∨ kind = .Gnu64) → (deterministic = true ∨ write_symtab = false) →
      ∃ out, write_archive_to_stream parse w ms write_symtab kind deterministic true =
        .ok out) := by
  constructor
  · intro hb
    unfold write_archive_to_stream
    rw [if_pos (by simp [hb])]
  · intro hg hd
    have hbsd : is_bsd_like kind = false := by
      rcases hg with h | h <;> simp [h, is_bsd_like]
    obtain ⟨⟨data0, st, sy⟩, hcmd⟩ :=
      compute_member_data_thin_ok parse kind deterministic write_symtab ms
    unfold write_archive_to_stream
    rw [if_neg (by simp [hbsd]), hcmd]
    rcases hd with hdet | hsym
    · subst hdet
      obtain ⟨k', hk'⟩ := upgraded_kind_det_ok kind
        (if st.isEmpty then data0 else compute_string_table st :: data0) sy
      obtain ⟨out, hout⟩ := write_symbol_table_det_ok k'
        (if st.isEmpty then data0 else compute_string_table st :: data0) sy
        (w ++ magicThin).length
      simp only [List.isEmpty_iff, List.length_append] at hk' hout
      cases write_symtab <;> simp [hk', hout]
    · subst hsym
      simp

/-- Witness for C5: thin mode with the Bsd kind fails with the sink untouched. -/
theorem c5_thin_mode_witness :
    write_archive_to_stream (fun _ => none) [] [] false .Bsd false true =
      .error (.thinNotGnu, []) :=
  (c5_thin_mode (fun _ => none) [] [] false .Bsd false).1 rfl

/-! ### C4: the unimplemented wall-clock timestamp stub -/

theorem compute_member_step_error {parse : List Nat → Option (List (List Nat))}
    {kind : ArchiveKind} {thin ut ns : Bool} {s : CMDState} {m : NewArchiveMember}
    {e : ArchiveError} (h : compute_member_step parse kind thin ut ns s m = .error e) :
    e = .memberTooBig m.member_name ∧ member_size kind thin m > MAX_MEMBER_SIZE := by
  unfold compute_member_step at h
  by_cases hc : member_size kind thin m > MAX_MEMBER_SIZE
  · rw [if_pos hc] at h
    injection h with h2
    exact ⟨h2.symm, hc⟩
  · rw [if_neg hc] at h
    exact absurd h (by simp)

theorem compute_member_step_ok_of_le {parse : List Nat → Option (List (List Nat))}
    {kind : ArchiveKind} {thin ut ns : Bool} {s : CMDState} {m : NewArchiveMember}
    (h : member_size kind thin m ≤ MAX_MEMBER_SIZE) :
    ∃ s', compute_member_step parse kind thin ut ns s m = .ok s' := by
  unfold compute_member_step
  rw [if_neg (by omega)]
  exact ⟨_, rfl⟩

theorem cmd_loop_ok_of_sizes (parse : List Nat → Option (List (List Nat)))
    (kind : ArchiveKind) (thin ut ns : Bool) :
    ∀ (ms : List NewArchiveMember) (s : CMDState),
      (∀ m ∈ ms, member_size kind thin m ≤ MAX_MEMBER_SIZE) →
      ∃ s', cmd_loop parse kind thin ut ns s ms = .ok s' := by
  intro ms
  induction ms with
  | nil => intro s _; exact ⟨s, rfl⟩
  | cons m rest ih =>
    intro s hall
    obtain ⟨s1, h1⟩ := compute_member_step_ok_of_le (hall m (by simp))
    obtain ⟨s2, h2⟩ := ih s1 (fun x hx => hall x (by simp [hx]))
    refine ⟨s2, ?_⟩
    unfold cmd_loop
    rw [h1]
    exact h2

theorem cmd_loop_error_shape (parse : List Nat → Option (List (List Nat)))
    (kind : ArchiveKind) (thin ut ns : Bool) :
    ∀ (ms : List NewArchiveMember) (s : CMDState) (e : ArchiveError),
      cmd_loop parse kind thin ut ns s ms = .error e →
      ∃ name, e = .memberTooBig name := by
  intro ms
  induction ms with
  | nil => intro s e h; simp [cmd_loop] at h
  | cons m rest ih =>
    intro s e h
    unfold cmd_loop at h
    cases hstep : compute_member_step parse kind thin ut ns s m with
    | error e0 =>
      rw [hstep] at h
      injection h with h2
      exact ⟨m.member_name, by rw [← h2, (compute_member_step_error hstep).1]⟩
    | ok s1 =>
      rw [hstep] at h
      exact ih s1 e h

theorem compute_member_data_error {parse : List Nat → Option (List (List Nat))}
    {kind : ArchiveKind} {thin det ns : Bool} {ms : List NewArchiveMember} {e : ArchiveError}
    (h : compute_member_data parse kind thin det ns ms = .error e) :
    ∃ name, e = .memberTooBig name := by
  unfold compute_member_data at h
  cases hl : cmd_loop parse kind thin (det && is_darwin kind) ns
      ⟨0, ⟨[], []⟩, [], false, if det && is_darwin kind then initCounts ms else [], []⟩ ms with
  | error e0 =>
    rw [hl] at h
    injection h with h2
    exact h2 ▸ cmd_loop_error_shape parse kind thin (det && is_darwin kind) ns ms _ e0 hl
  | ok s =>
    rw [hl] at h
    exact absurd h (by simp)

theorem compute_member_data_ok_of_sizes (parse : List Nat → Option (List (List Nat)))
    (kind : ArchiveKind) (thin det ns : Bool) (ms : List NewArchiveMember)
    (hall : ∀ m ∈ ms, member_size kind thin m ≤ MAX_MEMBER_SIZE) :
    ∃ r, compute_member_data parse kind thin det ns ms = .ok r := by
  obtain ⟨s', hs⟩ := cmd_loop_ok_of_sizes parse kind thin (det && is_darwin kind) ns ms
    ⟨0, ⟨[], []⟩, [], false, if det && is_darwin kind then initCounts ms else [], []⟩ hall
  unfold compute_member_data
  rw [hs]
  exact ⟨_, rfl⟩

theorem upgraded_kind_nondet (kind : ArchiveKind) (data : List MemberData)
    (sym_names : List Nat) :
    upgraded_kind kind false data sym_names = .error .todoNow := rfl

/-- C4 amended: with symbol table emission requested and deterministic mode
off, provided thin mode is legal for the kind and no member is oversized, the
writer aborts with the `todo!()` wall-clock stub during the symbol table
sizing, before any byte reaches the sink; with symbol table emission off the
stub is never reached for any input. -/
theorem c4_nondeterministic_todo (parse : List Nat → Option (List (List Nat))) (w : List Nat)
    (ms : List NewArchiveMember) (kind : ArchiveKind) (thin : Bool)
    (hthin : (thin && is_bsd_like kind) = false)
    (hall : ∀ m ∈ ms, member_size kind thin m ≤ MAX_MEMBER_SIZE) :
    write_archive_to_stream parse w ms true kind false thin = .error (.todoNow, w)
    ∧ ∀ (parse2 : List Nat → Option (List (List Nat))) (w2 : List Nat)
        (ms2 : List NewArchiveMember) (kind2 : ArchiveKind) (det2 thin2 : Bool)
        (w3 : List Nat),
        write_archive_to_stream parse2 w2 ms2 false kind2 det2 thin2 ≠
          .error (.todoNow, w3) := by
  constructor
  · obtain ⟨⟨d0, st, sy⟩, hcmd⟩ :=
      compute_member_data_ok_of_sizes parse kind thin false true ms hall
    rw [write_archive_to_stream_eq parse w ms true kind false thin d0 st sy hthin hcmd]
    simp [upgraded_kind_nondet]
  · intro parse2 w2 ms2 kind2 det2 thin2 w3 hEq
    by_cases hb : (thin2 && is_bsd_like kind2) = true
    · unfold write_archive_to_stream at hEq
      rw [if_pos hb] at hEq
      simp at hEq
    · have hb' : (thin2 && is_bsd_like kind2) = false := by
        simp only [Bool.not_eq_true] at hb
        exact hb
      cases hc : compute_member_data parse2 kind2 thin2 det2 false ms2 with
      | error e =>
        unfold write_archive_to_stream at hEq
        rw [if_neg (by simp [hb']), hc] at hEq
        obtain ⟨nm, hnm⟩ := compute_member_data_error hc
        subst hnm
        simp at hEq
      | ok r =>
        obtain ⟨d0, st, sy⟩ := r
        rw [write_archive_to_stream_eq parse2 w2 ms2 false kind2 det2 thin2 d0 st sy hb' hc]
          at hEq
        simp at hEq

/-- Counterexample for C4 as stated: with symbol table requested and
deterministic off but thin mode combined with the Bsd kind, the writer aborts
with the thin-mode assertion, not the unimplemented-timestamp panic. -/
theorem c4_counterexample :
    write_archive_to_stream (fun _ => none) [] [] true .Bsd false true ≠
      .error (.todoNow, [])
    ∧ write_archive_to_stream (fun _ => none) [] [] true .Bsd false true =
      .error (.thinNotGnu, []) := by
  have h : write_archive_to_stream (fun _ => none) [] [] true .Bsd false true =
      .error (.thinNotGnu, []) := rfl
  exact ⟨by rw [h]; simp, h⟩

/-- Witness for C4: symbol table requested, deterministic off, empty member
list, Gnu kind: the writer aborts with the todo stub and the sink unchanged. -/
theorem c4_nondeterministic_todo_witness :
    write_archive_to_stream (fun _ => none) [] [] true .Gnu false false =
      .error (.todoNow, []) :=
  (c4_nondeterministic_todo (fun _ => none) [] [] .Gnu false rfl (by simp)).1

/-! ### C10: the member size limit -/

theorem cmd_loop_error_of_big (parse : List Nat → Option (List (List Nat)))
    (kind : ArchiveKind) (thin ut ns : Bool) :
    ∀ (ms : List NewArchiveMember) (s : CMDState),
      (∃ m ∈ ms, member_size kind thin m > MAX_MEMBER_SIZE) →
      ∃ name, cmd_loop parse kind thin ut ns s ms = .error (.memberTooBig name)
        ∧ ∃ m ∈ ms, m.member_name = name ∧ member_size kind thin m > MAX_MEMBER_SIZE := by
  intro ms
  induction ms with
  | nil => intro s h; simp at h
  | cons m rest ih =>
    intro s hbig
    by_cases hm : member_size kind thin m > MAX_MEMBER_SIZE
    · refine ⟨m.member_name, ?_, m, by simp, rfl, hm⟩
      unfold cmd_loop
      rw [show compute_member_step parse kind thin ut ns s m =
          .error (.memberTooBig m.member_name) from by
        unfold compute_member_step
        rw [if_pos hm]]
    · obtain ⟨s1, h1⟩ := compute_member_step_ok_of_le (Nat.le_of_not_lt hm)
      have hrest : ∃ m' ∈ rest, member_size kind thin m' > MAX_MEMBER_SIZE := by
        obtain ⟨m', hmem, hb⟩ := hbig
        rcases List.mem_cons.mp hmem with h | h
        · exact absurd (h ▸ hb) hm
        · exact ⟨m', h, hb⟩
      obtain ⟨name, hloop, m', hm', hn, hb⟩ := ih s1 hrest
      refine ⟨name, ?_, m', by simp [hm'], hn, hb⟩
      unfold cmd_loop
      rw [h1]
      exact hloop

theorem compute_member_data_error_of_big (parse : List Nat → Option (List (List Nat)))
    (kind : ArchiveKind) (thin det ns : Bool) (ms : List NewArchiveMember)
    (hbig : ∃ m ∈ ms, member_size kind thin m > MAX_MEMBER_SIZE) :
    ∃ name, compute_member_data parse kind thin det ns ms = .error (.memberTooBig name)
      ∧ ∃ m ∈ ms, m.member_name = name ∧ member_size kind thin m > MAX_MEMBER_SIZE := by
  obtain ⟨name, hloop, hw⟩ := cmd_loop_error_of_big parse kind thin (det && is_darwin kind) ns
    ms ⟨0, ⟨[], []⟩, [], false, if det && is_darwin kind then initCounts ms else [], []⟩ hbig
  refine ⟨name, ?_, hw⟩
  unfold compute_member_data
  rw [hloop]

/-- C10: when some member's payload length plus Darwin internal padding
exceeds `MAX_MEMBER_SIZE`, the writer fails with an error naming an offending
member, and the output sink is returned unchanged in the error: not even the
8-byte magic has been written. -/
theorem c10_oversized_member (parse : List Nat → Option (List (List Nat))) (w : List Nat)
    (ms : List NewArchiveMember) (write_symtab : Bool) (kind : ArchiveKind)
    (deterministic thin : Bool)
    (hthin : (thin && is_bsd_like kind) = false)
    (hbig : ∃ m ∈ ms, member_size kind thin m > MAX_MEMBER_SIZE) :
    ∃ name, write_archive_to_stream parse w ms write_symtab kind deterministic thin =
        .error (.memberTooBig name, w)
      ∧ ∃ m ∈ ms, m.member_name = name ∧ member_size kind thin m > MAX_MEMBER_SIZE := by
  obtain ⟨name, hcmd, hw⟩ :=
    compute_member_data_error_of_big parse kind thin deterministic write_symtab ms hbig
  refine ⟨name, ?_, hw⟩
  unfold write_archive_to_stream
  rw [if_neg (by simp [hthin]), hcmd]

theorem member_size_gnu_nonthin (m : NewArchiveMember) :
    member_size .Gnu false m = m.buf.length := by
  simp [member_size, member_data_bytes, member_padding_of, is_darwin]

/-- Witness for C10: a ten-gigabyte member exceeds the limit; the writer
fails naming it and the sink stays empty. -/
theorem c10_oversized_member_witness :
    ∃ name, write_archive_to_stream (fun _ => none) []
        [⟨List.replicate 10000000000 0, [97], 0, 0, 0, 0⟩] false .Gnu true false =
        .error (.memberTooBig name, [])
      ∧ ∃ m ∈ [(⟨List.replicate 10000000000 0, [97], 0, 0, 0, 0⟩ : NewArchiveMember)],
          m.member_name = name ∧ member_size .Gnu false m > MAX_MEMBER_SIZE := by
  apply c10_oversized_member
  · rfl
  · refine ⟨⟨List.replicate 10000000000 0, [97], 0, 0, 0, 0⟩,
      List.mem_singleton.mpr rfl, ?_⟩
    rw [member_size_gnu_nonthin]
    show (List.replicate 10000000000 (0 : Nat)).length > MAX_MEMBER_SIZE
    rw [List.length_replicate]
    norm_num [MAX_MEMBER_SIZE]

/-! ### C1: symbol table emission and omission -/

theorem compute_member_step_ok_inv {parse : List Nat → Option (List (List Nat))}
    {kind : ArchiveKind} {thin ut ns : Bool} {s : CMDState} {m : NewArchiveMember}
    {s1 : CMDState} (h : compute_member_step parse kind thin ut ns s m = .ok s1) :
    s1 = step_result parse kind thin ut ns s m := by
  unfold compute_member_step at h
  by_cases hc : member_size kind thin m > MAX_MEMBER_SIZE
  · rw [if_pos hc] at h
    exact absurd h (by simp)
  · rw [if_neg hc] at h
    injection h with h2
    exact h2.symm

theorem compute_member_data_inv {parse : List Nat → Option (List (List Nat))}
    {kind : ArchiveKind} {thin det ns : Bool} {ms : List NewArchiveMember}
    {r : List MemberData × List Nat × List Nat}
    (h : compute_member_data parse kind thin det ns ms = .ok r) :
    ∃ s, cmd_loop parse kind thin (det && is_darwin kind) ns
        ⟨0, ⟨[], []⟩, [], false, if det && is_darwin kind then initCounts ms else [], []⟩ ms =
        .ok s
      ∧ r = (s.members, s.st.string_table,
          if s.has_object && s.sym_names.isEmpty then [0, 0, 0] else s.sym_names) := by
  unfold compute_member_data at h
  cases hl : cmd_loop parse kind thin (det && is_darwin kind) ns
      ⟨0, ⟨[], []⟩, [], false, if det && is_darwin kind then initCounts ms else [], []⟩ ms with
  | error e =>
    rw [hl] at h
    exact absurd h (by simp)
  | ok s =>
    rw [hl] at h
    injection h with h2
    exact ⟨s, rfl, h2.symm⟩

theorem get_symbols_none {parse : List Nat → Option (List (List Nat))} {buf sn : List Nat}
    {ho : Bool} (h : parse buf = none) :
    get_symbols parse buf sn ho = ([], sn, ho) := by
  simp [get_symbols, h]

theorem get_symbols_has_object {parse : List Nat → Option (List (List Nat))}
    {buf sn : List Nat} {syms : List (List Nat)} {ho : Bool} (h : parse buf = some syms) :
    (get_symbols parse buf sn ho).2.2 = true := by
  simp [get_symbols, h]

theorem step_syms_ho_mono {parse : List Nat → Option (List (List Nat))} {ns thin : Bool}
    {s : CMDState} {m : NewArchiveMember} (h : s.has_object = true) :
    (step_syms parse ns thin s m).2.2 = true := by
  unfold step_syms
  cases hns : ns with
  | false => simpa using h
  | true =>
    simp only [if_pos rfl]
    cases hp : parse (member_data_bytes thin m) with
    | none => rw [get_symbols_none hp]; simpa using h
    | some syms => exact get_symbols_has_object hp

theorem cmd_loop_ho_mono (parse : List Nat → Option (List (List Nat))) (kind : ArchiveKind)
    (thin ut ns : Bool) :
    ∀ (ms : List NewArchiveMember) (s s' : CMDState),
      cmd_loop parse kind thin ut ns s ms = .ok s' → s.has_object = true →
      s'.has_object = true := by
  intro ms
  induction ms with
  | nil =>
    intro s s' h hho
    simp only [cmd_loop] at h
    injection h with h2
    exact h2 ▸ hho
  | cons m rest ih =>
    intro s s' h hho
    unfold cmd_loop at h
    cases hstep : compute_member_step parse kind thin ut ns s m with
    | error e => rw [hstep] at h; exact absurd h (by simp)
    | ok s1 =>
      rw [hstep] at h
      have h1 := compute_member_step_ok_inv hstep
      refine ih s1 s' h ?_
      rw [h1]
      exact step_syms_ho_mono hho

theorem cmd_loop_no_object (parse : List Nat → Option (List (List Nat))) (kind : ArchiveKind)
    (thin ut : Bool) :
    ∀ (ms : List NewArchiveMember) (s s' : CMDState),
      cmd_loop parse kind thin ut true s ms = .ok s' →
      (∀ m ∈ ms, parse (member_data_bytes thin m) = none) →
      s'.sym_names = s.sym_names ∧ s'.has_object = s.has_object := by
  intro ms
  induction ms with
  | nil =>
    intro s s' h _
    simp only [cmd_loop] at h
    injection h with h2
    rw [h2]
    exact ⟨rfl, rfl⟩
  | cons m rest ih =>
    intro s s' h hall
    unfold cmd_loop at h
    cases hstep : compute_member_step parse kind thin ut true s m with
    | error e => rw [hstep] at h; exact absurd h (by simp)
    | ok s1 =>
      rw [hstep] at h
      have h1 := compute_member_step_ok_inv hstep
      have hsy : s1.sym_names = s.sym_names ∧ s1.has_object = s.has_object := by
        rw [h1]
        unfold step_result step_syms
        rw [if_pos rfl, get_symbols_none (hall m (by simp))]
        exact ⟨rfl, rfl⟩
      obtain ⟨ha, hb⟩ := ih s1 s' h (fun x hx => hall x (by simp [hx]))
      exact ⟨ha.trans hsy.1, hb.trans hsy.2⟩

theorem cmd_loop_some_object (parse : List Nat → Option (List (List Nat)))
    (kind : ArchiveKind) (thin ut : Bool) :
    ∀ (ms : List NewArchiveMember) (s s' : CMDState),
      cmd_loop parse kind thin ut true s ms = .ok s' →
      (∃ m ∈ ms, parse (member_data_bytes thin m) ≠ none) →
      s'.has_object = true := by
  intro ms
  induction ms with
  | nil => intro s s' _ h; simp at h
  | cons m rest ih =>
    intro s s' h hex
    unfold cmd_loop at h
    cases hstep : compute_member_step parse kind thin ut true s m with
    | error e => rw [hstep] at h; exact absurd h (by simp)
    | ok s1 =>
      rw [hstep] at h
      have h1 := compute_member_step_ok_inv hstep
      obtain ⟨m', hmem, hp⟩ := hex
      rcases List.mem_cons.mp hmem with heq | hmem'
      · subst heq
        cases hp2 : parse (member_data_bytes thin m') with
        | none => exact absurd hp2 hp
        | some syms =>
          refine cmd_loop_ho_mono parse kind thin ut true rest s1 s' h ?_
          rw [h1]
          unfold step_result step_syms
          rw [if_pos rfl]
          exact get_symbols_has_object hp2
      · exact ih s1 s' h ⟨m', hmem', hp⟩

/-- The symbol name buffer handed to `write_symbol_table` is empty exactly
when no member's payload parsed as an object file. -/
theorem compute_member_data_symnames {parse : List Nat → Option (List (List Nat))}
    {kind : ArchiveKind} {thin det : Bool} {ms : List NewArchiveMember}
    {d : List MemberData} {st sy : List Nat}
    (hcmd : compute_member_data parse kind thin det true ms = .ok (d, st, sy)) :
    sy = [] ↔ ∀ m ∈ ms, parse (member_data_bytes thin m) = none := by
  obtain ⟨s, hl, hr⟩ := compute_member_data_inv hcmd
  have hsy : sy = if s.has_object && s.sym_names.isEmpty then [0, 0, 0] else s.sym_names := by
    have := congrArg (fun r => r.2.2) hr
    simpa using this
  constructor
  · intro hnil
    by_contra hne
    push_neg at hne
    obtain ⟨m, hmem, hp⟩ := hne
    have hho : s.has_object = true :=
      cmd_loop_some_object parse kind thin (det && is_darwin kind) ms _ s hl ⟨m, hmem, hp⟩
    rw [hho] at hsy
    by_cases he : s.sym_names.isEmpty
    · rw [hsy] at hnil
      simp [he] at hnil
    · rw [hsy] at hnil
      simp only [Bool.true_and, if_neg he] at hnil
      exact he (by simp [hnil])
  · intro hall
    obtain ⟨ha, hb⟩ :=
      cmd_loop_no_object parse kind thin (det && is_darwin kind) ms _ s hl hall
    rw [hsy, ha, hb]
    simp

theorem print_bsd_member_header_ne_nil (pos : Nat) (name : List Nat)
    (mtime uid gid perms size : Nat) :
    print_bsd_member_header pos name mtime uid gid perms size ≠ [] := by
  intro h
  have := congrArg List.length h
  simp [print_bsd_member_header] at this

theorem print_gnu_small_member_header_ne_nil (name : List Nat)
    (mtime uid gid perms size : Nat) :
    print_gnu_small_member_header name mtime uid gid perms size ≠ [] := by
  intro h
  have := congrArg List.length h
  simp [print_gnu_small_member_header, padTo_length] at this

theorem write_symbol_table_header_det (kind : ArchiveKind) (size pos : Nat) :
    write_symbol_table_header kind true size pos =
      .ok (if is_bsd_like kind then
          print_bsd_member_header pos (if is_64bit_kind kind then symdef64Name else symdefName)
            0 0 0 0 size
        else
          print_gnu_small_member_header (if is_64bit_kind kind then sym64Name else [])
            0 0 0 0 size) := by
  by_cases hb : is_bsd_like kind <;> simp [write_symbol_table_header, now, hb]

/-- The chunk written by `write_symbol_table` in deterministic mode: empty
when omitted, otherwise the header followed by the table body. -/
theorem write_symbol_table_det_shape (kind : ArchiveKind) (dd : List MemberData)
    (sy : List Nat) (pos : Nat) (chunk : List Nat)
    (h : write_symbol_table kind true dd sy pos = .ok chunk) :
    (sy.isEmpty && !is_darwin kind) = true ∧ chunk = []
    ∨ (sy.isEmpty && !is_darwin kind) = false ∧ chunk ≠ [] := by
  unfold write_symbol_table at h
  by_cases hc : (sy.isEmpty && !is_darwin kind) = true
  · rw [if_pos hc] at h
    injection h with h2
    exact Or.inl ⟨hc, h2.symm⟩
  · rw [if_neg hc, write_symbol_table_header_det] at h
    refine Or.inr ⟨by simpa using hc, ?_⟩
    injection h with h2
    intro hnil
    rw [← h2] at hnil
    have hlen := congrArg List.length hnil
    by_cases hb : is_bsd_like kind
    · rw [if_pos hb] at hlen
      simp [print_bsd_member_header, List.length_append] at hlen
    · rw [if_neg hb] at hlen
      simp [print_gnu_small_member_header, List.length_append, padTo_length] at hlen

/-- C1 amended: with symbol table emission requested, Darwin and Darwin64
always write a (possibly empty) symbol table pseudo-member; every other kind
omits it exactly when the symbol name buffer is empty, which holds exactly
when no member's payload parsed as an object file.  (A member that parses as
an object but yields no symbols still forces an empty table, via the
three-NUL Solaris fixup.) -/
theorem c1_symbol_table_emission (parse : List Nat → Option (List (List Nat)))
    (kind : ArchiveKind) (thin det : Bool) (ms : List NewArchiveMember)
    (d : List MemberData) (st sy : List Nat) (pos : Nat)
    (hcmd : compute_member_data parse kind thin det true ms = .ok (d, st, sy)) :
    (is_darwin kind = true → ∀ (dd : List MemberData) (chunk : List Nat),
        write_symbol_table kind true dd sy pos = .ok chunk → chunk ≠ [])
    ∧ (is_darwin kind = false → ∀ chunk : List Nat,
        write_symbol_table kind true d sy pos = .ok chunk →
        (chunk = [] ↔ ∀ m ∈ ms, parse (member_data_bytes thin m) = none)) := by
  constructor
  · intro hd dd chunk hc
    rcases write_symbol_table_det_shape kind dd sy pos chunk hc with ⟨hcond, _⟩ | ⟨_, hne⟩
    · rw [hd] at hcond
      simp at hcond
    · exact hne
  · intro hd chunk hc
    rcases write_symbol_table_det_shape kind d sy pos chunk hc with
      ⟨hcond, hnil⟩ | ⟨hcond, hne⟩
    · subst hnil
      rw [hd] at hcond
      simp only [Bool.not_false, Bool.and_true] at hcond
      exact ⟨fun _ => (compute_member_data_symnames hcmd).mp
          (by simpa [List.isEmpty_iff] using hcond),
        fun _ => rfl⟩
    · constructor
      · intro h0
        exact absurd h0 hne
      · intro hall
        have hnil2 : sy = [] := (compute_member_data_symnames hcmd).mpr hall
        rw [hd] at hcond
        simp [hnil2] at hcond

/-- Witness for C1: a Darwin archive with no members still gets a nonempty
symbol table chunk. -/
theorem c1_symbol_table_emission_witness :
    (write_symbol_table .Darwin true [] [] 8).toOption.getD [] ≠ [] :=
  (c1_symbol_table_emission (fun _ => none) .Darwin false true [] [] [] [] 8 rfl).1 rfl []
    ((write_symbol_table .Darwin true [] [] 8).toOption.getD []) rfl

/-- Counterexample for C1 as stated: a single GNU member that parses as an
object file with no qualifying symbols yields zero extracted symbols, yet the
symbol name buffer becomes the three-NUL Solaris fixup and the symbol table
member is still emitted (nonempty chunk), so "omitted exactly when no symbols
were extracted" fails. -/
theorem c1_counterexample :
    (compute_member_data (fun _ => some []) .Gnu false true true
        [⟨[1], [97], 0, 0, 0, 0⟩]).map
      (fun r => ((r.1.map (fun md => md.symbols.length)).sum, r.2.2,
        ((write_symbol_table .Gnu true r.1 r.2.2 8).toOption.getD []).isEmpty)) =
    .ok (0, [0, 0, 0], false) := by rfl

/-! ### C3: Darwin synthetic timestamps -/

theorem is_bsd_like_of_darwin {kind : ArchiveKind} (h : is_darwin kind = true) :
    is_bsd_like kind = true := by
  cases kind <;> simp_all [is_darwin, is_bsd_like]

theorem countName_cons (m : NewArchiveMember) (ms : List NewArchiveMember) (n : List Nat) :
    countName (m :: ms) n = (if m.member_name = n then 1 else 0) + countName ms n := by
  by_cases h : m.member_name = n <;>
    simp [countName, List.filter_cons, h, Nat.add_comm]

theorem countName_append (l1 l2 : List NewArchiveMember) (n : List Nat) :
    countName (l1 ++ l2) n = countName l1 n + countName l2 n := by
  simp [countName, List.filter_append]

theorem countName_pos_of_mem {m : NewArchiveMember} {ms : List NewArchiveMember}
    (h : m ∈ ms) : 1 ≤ countName ms m.member_name := by
  induction ms with
  | nil => simp at h
  | cons x rest ih =>
    rcases List.mem_cons.mp h with he | hm
    · rw [he, countName_cons]
      simp
    · rw [countName_cons]
      have := ih hm
      omega

theorem getCount_bumpCount (n x : List Nat) :
    ∀ l : List (List Nat × Nat),
      getCount (bumpCount l n) x = getCount l x + (if x = n then 1 else 0) := by
  intro l
  induction l with
  | nil =>
    have hb : bumpCount [] n = [(n, 1)] := rfl
    rw [hb]
    by_cases h : x = n
    · subst h
      simp [getCount, lookupName]
    · rw [if_neg h, getCount, getCount, lookupName, lookupName,
        if_neg (fun h2 : n = x => h h2.symm)]
      rfl
  | cons kv rest ih =>
    obtain ⟨k, v⟩ := kv
    by_cases hk : k = n
    · subst hk
      have hb : bumpCount ((k, v) :: rest) k = (k, v + 1) :: rest := by
        simp [bumpCount]
      rw [hb]
      by_cases hx : k = x
      · subst hx
        simp [getCount, lookupName]
      · rw [if_neg (fun h2 : x = k => hx h2.symm)]
        simp [getCount, lookupName, hx]
    · have hb : bumpCount ((k, v) :: rest) n = (k, v) :: bumpCount rest n := by
        simp [bumpCount, hk]
      rw [hb]
      by_cases hx : k = x
      · subst hx
        rw [if_neg hk]
        simp [getCount, lookupName]
      · rw [getCount, getCount, lookupName, lookupName, if_neg hx, if_neg hx]
        exact ih

theorem getCount_foldl_bump :
    ∀ (l : List NewArchiveMember) (init : List (List Nat × Nat)) (n : List Nat),
      getCount (l.foldl (fun acc m => bumpCount acc m.member_name) init) n =
        getCount init n + countName l n := by
  intro l
  induction l with
  | nil => intro init n; simp [countName]
  | cons m rest ih =>
    intro init n
    rw [List.foldl_cons, ih, getCount_bumpCount, countName_cons]
    by_cases h : m.member_name = n
    · subst h
      simp
      omega
    · rw [if_neg (fun h2 : n = m.member_name => h h2.symm), if_neg h]
      omega

theorem getCount_clampCounts (n : List Nat) :
    ∀ l : List (List Nat × Nat), getCount (clampCounts l) n = min (getCount l n) 1 := by
  intro l
  induction l with
  | nil => simp [clampCounts, getCount, lookupName]
  | cons kv rest ih =>
    obtain ⟨k, v⟩ := kv
    have hstep : clampCounts ((k, v) :: rest) =
        (if v > 1 then (k, 1) else (k, v)) :: clampCounts rest := by
      simp [clampCounts]
    rw [hstep]
    by_cases hv : v > 1
    · rw [if_pos hv]
      by_cases hk : k = n
      · simp [getCount, lookupName, hk]
        omega
      · simp only [getCount, lookupName, if_neg hk]
        exact ih
    · rw [if_neg hv]
      by_cases hk : k = n
      · simp [getCount, lookupName, hk]
        omega
      · simp only [getCount, lookupName, if_neg hk]
        exact ih

theorem getCount_initCounts (ms : List NewArchiveMember) (n : List Nat) :
    getCount (initCounts ms) n = min (countName ms n) 1 := by
  rw [initCounts, getCount_clampCounts, getCount_foldl_bump]
  simp [getCount, lookupName]

theorem cmd_loop_members_mono (parse : List Nat → Option (List (List Nat)))
    (kind : ArchiveKind) (thin ut ns : Bool) :
    ∀ (ms : List NewArchiveMember) (s s' : CMDState),
      cmd_loop parse kind thin ut ns s ms = .ok s' →
      ∃ t, s'.members = s.members ++ t := by
  intro ms
  induction ms with
  | nil =>
    intro s s' h
    simp only [cmd_loop] at h
    injection h with h2
    exact ⟨[], by simp [h2]⟩
  | cons m rest ih =>
    intro s s' h
    unfold cmd_loop at h
    cases hstep : compute_member_step parse kind thin ut ns s m with
    | error e => rw [hstep] at h; exact absurd h (by simp)
    | ok s1 =>
      rw [hstep] at h
      obtain ⟨t, ht⟩ := ih s1 s' h
      have hmem : s1.members = s.members ++ [⟨(step_syms parse ns thin s m).1,
          (print_member_header s.pos s.st kind thin m (step_mtime ut s m)
            (member_size kind thin m)).1,
          member_data_bytes thin m, member_pad_bytes kind thin m⟩] := by
        rw [compute_member_step_ok_inv hstep]
        rfl
      refine ⟨[(⟨(step_syms parse ns thin s m).1,
          (print_member_header s.pos s.st kind thin m (step_mtime ut s m)
            (member_size kind thin m)).1,
          member_data_bytes thin m, member_pad_bytes kind thin m⟩ : MemberData)] ++ t, ?_⟩
      rw [ht, hmem, List.append_assoc]

theorem cmd_loop_darwin_headers (parse : List Nat → Option (List (List Nat)))
    (kind : ArchiveKind) (thin ns : Bool) (hdar : is_darwin kind = true)
    (full : List NewArchiveMember) :
    ∀ (l1 : List NewArchiveMember) (m : NewArchiveMember) (l2 done : List NewArchiveMember)
      (s s' : CMDState),
      cmd_loop parse kind thin true ns s (l1 ++ m :: l2) = .ok s' →
      s.counts = (done.foldl (fun acc x => bumpCount acc x.member_name) (initCounts full)) →
      1 ≤ countName full m.member_name →
      ∃ p e1 md e2, s'.members = s.members ++ e1 ++ md :: e2 ∧ e1.length = l1.length ∧
        md.header = print_bsd_member_header p m.member_name
          (1 + countName (done ++ l1) m.member_name) m.uid m.gid m.perms
          (member_size kind thin m) := by
  intro l1
  induction l1 with
  | nil =>
    intro m l2 done s s' hloop hcounts hfull
    rw [List.nil_append] at hloop
    unfold cmd_loop at hloop
    cases hstep : compute_member_step parse kind thin true ns s m with
    | error e => rw [hstep] at hloop; exact absurd hloop (by simp)
    | ok s1 =>
      rw [hstep] at hloop
      have h1 := compute_member_step_ok_inv hstep
      obtain ⟨t, ht⟩ := cmd_loop_members_mono parse kind thin true ns l2 s1 s' hloop
      have hmt : step_mtime true s m = 1 + countName done m.member_name := by
        unfold step_mtime step_counts
        rw [if_pos rfl, if_pos rfl, getCount_bumpCount, if_pos rfl, hcounts,
          getCount_foldl_bump, getCount_initCounts]
        omega
      have hm1 : s1.members = s.members ++ [⟨(step_syms parse ns thin s m).1,
          (print_member_header s.pos s.st kind thin m (step_mtime true s m)
            (member_size kind thin m)).1,
          member_data_bytes thin m, member_pad_bytes kind thin m⟩] := by
        rw [h1]
        rfl
      refine ⟨s.pos, [], ⟨(step_syms parse ns thin s m).1,
        (print_member_header s.pos s.st kind thin m (step_mtime true s m)
          (member_size kind thin m)).1,
        member_data_bytes thin m, member_pad_bytes kind thin m⟩, t, ?_, rfl, ?_⟩
      · rw [ht, hm1]
        simp
      · show (print_member_header s.pos s.st kind thin m (step_mtime true s m)
          (member_size kind thin m)).1 = _
        unfold print_member_header
        rw [if_pos (is_bsd_like_of_darwin hdar), hmt, List.append_nil]
  | cons x l1' ih =>
    intro m l2 done s s' hloop hcounts hfull
    rw [List.cons_append] at hloop
    unfold cmd_loop at hloop
    cases hstep : compute_member_step parse kind thin true ns s x with
    | error e => rw [hstep] at hloop; exact absurd hloop (by simp)
    | ok s1 =>
      rw [hstep] at hloop
      have h1 := compute_member_step_ok_inv hstep
      have hc1 : s1.counts = ((done ++ [x]).foldl (fun acc y => bumpCount acc y.member_name)
          (initCounts full)) := by
        rw [h1]
        show step_counts true s x = _
        unfold step_counts
        rw [if_pos rfl, List.foldl_append, List.foldl_cons, List.foldl_nil, hcounts]
      obtain ⟨p, e1, md, e2, hmem, hlen, hhd⟩ := ih m l2 (done ++ [x]) s1 s' hloop hc1 hfull
      have hm1 : s1.members = s.members ++ [⟨(step_syms parse ns thin s x).1,
          (print_member_header s.pos s.st kind thin x (step_mtime true s x)
            (member_size kind thin x)).1,
          member_data_bytes thin x, member_pad_bytes kind thin x⟩] := by
        rw [h1]
        rfl
      refine ⟨p, (⟨(step_syms parse ns thin s x).1,
        (print_member_header s.pos s.st kind thin x (step_mtime true s x)
          (member_size kind thin x)).1,
        member_data_bytes thin x, member_pad_bytes kind thin x⟩ : MemberData) :: e1,
        md, e2, ?_, by simp [hlen], ?_⟩
      · rw [hmem, hm1]
        simp
      · rw [List.append_assoc, List.singleton_append] at hhd
        exact hhd

/-- C3 amended: with kind Darwin or Darwin64 and deterministic mode, the
stored mtime of every member (duplicated name or not) is replaced by 1 plus
the number of earlier members with the same name — the caller-supplied mtime
is ignored for all members, the counter starts at 1, and the substitution is
not restricted to names with duplicate count greater than one. -/
theorem c3_darwin_unique_timestamps (parse : List Nat → Option (List (List Nat)))
    (kind : ArchiveKind) (thin ns : Bool) (ms l1 l2 : List NewArchiveMember)
    (m : NewArchiveMember) (d : List MemberData) (st sy : List Nat)
    (hdar : is_darwin kind = true)
    (hms : ms = l1 ++ m :: l2)
    (hcmd : compute_member_data parse kind thin true ns ms = .ok (d, st, sy)) :
    ∃ p e1 md e2, d = e1 ++ md :: e2 ∧ e1.length = l1.length ∧
      md.header = print_bsd_member_header p m.member_name
        (1 + countName l1 m.member_name) m.uid m.gid m.perms (member_size kind thin m) := by
  obtain ⟨s, hl, hr⟩ := compute_member_data_inv hcmd
  have hd : d = s.members := by
    have := congrArg (fun r => r.1) hr
    simpa using this
  rw [hdar] at hl
  simp only [Bool.and_true, Bool.true_and, if_pos rfl] at hl
  subst hms
  obtain ⟨p, e1, md, e2, hmem, hlen, hhd⟩ :=
    cmd_loop_darwin_headers parse kind thin ns hdar (l1 ++ m :: l2) l1 m l2 []
      ⟨0, ⟨[], []⟩, [], false, initCounts (l1 ++ m :: l2), []⟩ s hl (by simp)
      (countName_pos_of_mem (by simp))
  refine ⟨p, e1, md, e2, ?_, hlen, ?_⟩
  · rw [hd]
    simpa using hmem
  · rw [List.nil_append] at hhd
    exact hhd

/-- Counterexample for C3 as stated: Darwin, deterministic, members named
a (mtime 42), a (mtime 43), b (mtime 99).  The stored mtime fields are 1, 2
and 1: the duplicated name does not start at 0, and the unique name b does
not keep its caller-supplied mtime 99. -/
theorem c3_counterexample :
    (compute_member_data (fun _ => none) .Darwin false true false
        [⟨[], [97], 42, 0, 0, 0⟩, ⟨[], [97], 43, 0, 0, 0⟩, ⟨[], [98], 99, 0, 0, 0⟩]).map
      (fun r => r.1.map (fun md => (md.header.drop 16).take 12))
    = .ok [padTo 12 (dec 1), padTo 12 (dec 2), padTo 12 (dec 1)]
    ∧ padTo 12 (dec 1) ≠ padTo 12 (dec 0) ∧ padTo 12 (dec 1) ≠ padTo 12 (dec 99) :=
  ⟨rfl, by decide, by decide⟩

/-- Witness for C3: in the same three-member Darwin archive, the unique-named
third member gets the synthetic mtime 1 + 0. -/
theorem c3_darwin_unique_timestamps_witness :
    ∃ p e1 md e2,
      ((compute_member_data (fun _ => none) .Darwin false true false
          [⟨[], [97], 42, 0, 0, 0⟩, ⟨[], [97], 43, 0, 0, 0⟩,
            ⟨[], [98], 99, 0, 0, 0⟩]).toOption.getD ([], [], [])).1 = e1 ++ md :: e2
      ∧ e1.length = 2
      ∧ md.header = print_bsd_member_header p [98]
          (1 + countName [⟨[], [97], 42, 0, 0, 0⟩, ⟨[], [97], 43, 0, 0, 0⟩] [98]) 0 0 0
          (member_size .Darwin false ⟨[], [98], 99, 0, 0, 0⟩) :=
  c3_darwin_unique_timestamps (fun _ => none) .Darwin false false
    [⟨[], [97], 42, 0, 0, 0⟩, ⟨[], [97], 43, 0, 0, 0⟩, ⟨[], [98], 99, 0, 0, 0⟩]
    [⟨[], [97], 42, 0, 0, 0⟩, ⟨[], [97], 43, 0, 0, 0⟩] [] ⟨[], [98], 99, 0, 0, 0⟩
    _ _ _ rfl rfl rfl

/-! ### C8: string table deduplication -/

theorem lookupName_append_some {l : List (List Nat × Nat)} {n : List Nat} {p : Nat}
    (h : lookupName l n = some p) (l2 : List (List Nat × Nat)) :
    lookupName (l ++ l2) n = some p := by
  induction l with
  | nil => simp [lookupName] at h
  | cons kv rest ih =>
    obtain ⟨k, v⟩ := kv
    by_cases hk : k = n
    · rw [lookupName, if_pos hk] at h
      rw [List.cons_append, lookupName, if_pos hk]
      exact h
    · rw [lookupName, if_neg hk] at h
      rw [List.cons_append, lookupName, if_neg hk]
      exact ih h

theorem lookupName_eq_none {l : List (List Nat × Nat)} {n : List Nat} :
    lookupName l n = none ↔ n ∉ l.map Prod.fst := by
  induction l with
  | nil => simp [lookupName]
  | cons kv rest ih =>
    obtain ⟨k, v⟩ := kv
    by_cases hk : k = n
    · subst hk
      simp [lookupName]
    · rw [lookupName, if_neg hk, ih]
      constructor
      · intro hnm
        simp only [List.map_cons, List.mem_cons]
        rintro (h1 | h2)
        · exact hk h1.symm
        · exact hnm h2
      · intro hnm h2
        exact hnm (by simp [h2])

theorem lookupName_append_none {l : List (List Nat × Nat)} {n : List Nat}
    (h : lookupName l n = none) (l2 : List (List Nat × Nat)) :
    lookupName (l ++ l2) n = lookupName l2 n := by
  induction l with
  | nil => simp
  | cons kv rest ih =>
    obtain ⟨k, v⟩ := kv
    by_cases hk : k = n
    · rw [lookupName, if_pos hk] at h
      exact absurd h (by simp)
    · rw [lookupName, if_neg hk] at h
      rw [List.cons_append, lookupName, if_neg hk]
      exact ih h

/-- The string table invariant of the non-thin writer: the table is exactly
one `name/\n` record per entry of the deduplication map, whose keys are
pairwise distinct. -/
def stInv (st : STState) : Prop :=
  st.string_table = (st.member_names.map (fun kv => kv.1 ++ [47, 10])).flatten
  ∧ (st.member_names.map Prod.fst).Nodup

theorem print_member_header_st_cases (pos : Nat) (st : STState) (kind : ArchiveKind)
    (m : NewArchiveMember) (mtime size : Nat) (hbsd : is_bsd_like kind = false) :
    (use_string_table false m.member_name = false ∧
      (print_member_header pos st kind false m mtime size).2 = st)
    ∨ (use_string_table false m.member_name = true ∧
       ((∃ p, lookupName st.member_names m.member_name = some p ∧
          (print_member_header pos st kind false m mtime size).2 = st ∧
          (print_member_header pos st kind false m mtime size).1 =
            [47] ++ padTo 15 (dec p) ++
              print_rest_of_member_header mtime m.uid m.gid m.perms size)
        ∨ (lookupName st.member_names m.member_name = none ∧
          (print_member_header pos st kind false m mtime size).2 =
            ⟨st.string_table ++ m.member_name ++ [47, 10],
             st.member_names ++ [(m.member_name, st.string_table.length)]⟩ ∧
          (print_member_header pos st kind false m mtime size).1 =
            [47] ++ padTo 15 (dec st.string_table.length) ++
              print_rest_of_member_header mtime m.uid m.gid m.perms size))) := by
  by_cases hust : use_string_table false m.member_name = true
  · refine Or.inr ⟨hust, ?_⟩
    cases hlk : lookupName st.member_names m.member_name with
    | some p =>
      exact Or.inl ⟨p, rfl, by simp [print_member_header, hbsd, hust, hlk],
        by simp [print_member_header, hbsd, hust, hlk]⟩
    | none =>
      exact Or.inr ⟨rfl, by simp [print_member_header, hbsd, hust, hlk],
        by simp [print_member_header, hbsd, hust, hlk]⟩
  · refine Or.inl ⟨by simpa using hust, ?_⟩
    simp only [Bool.not_eq_true] at hust
    simp [print_member_header, hbsd, hust]

theorem print_member_header_st_mono (pos : Nat) (st : STState) (kind : ArchiveKind)
    (thin : Bool) (m : NewArchiveMember) (mtime size : Nat) :
    ∃ t, (print_member_header pos st kind thin m mtime size).2.member_names =
      st.member_names ++ t := by
  unfold print_member_header
  by_cases hbsd : is_bsd_like kind = true
  · rw [if_pos hbsd]
    exact ⟨[], by simp⟩
  · rw [if_neg hbsd]
    by_cases hust : use_string_table thin m.member_name = true
    · rw [if_pos hust]
      by_cases ht : thin = true
      · subst ht
        rw [if_pos rfl]
        exact ⟨[], by simp⟩
      · simp only [Bool.not_eq_true] at ht
        subst ht
        rw [if_neg (by simp)]
        cases hlk : lookupName st.member_names m.member_name with
        | some p => exact ⟨[], by simp⟩
        | none => exact ⟨[(m.member_name, st.string_table.length)], rfl⟩
    · rw [if_neg hust]
      exact ⟨[], by simp⟩

theorem cmd_loop_names_mono (parse : List Nat → Option (List (List Nat)))
    (kind : ArchiveKind) (thin ut ns : Bool) :
    ∀ (ms : List NewArchiveMember) (s s' : CMDState),
      cmd_loop parse kind thin ut ns s ms = .ok s' →
      ∃ t, s'.st.member_names = s.st.member_names ++ t := by
  intro ms
  induction ms with
  | nil =>
    intro s s' h
    simp only [cmd_loop] at h
    injection h with h2
    exact ⟨[], by simp [h2]⟩
  | cons m rest ih =>
    intro s s' h
    unfold cmd_loop at h
    cases hstep : compute_member_step parse kind thin ut ns s m with
    | error e => rw [hstep] at h; exact absurd h (by simp)
    | ok s1 =>
      rw [hstep] at h
      obtain ⟨t2, ht2⟩ := ih s1 s' h
      have hst : s1.st = (print_member_header s.pos s.st kind thin m (step_mtime ut s m)
          (member_size kind thin m)).2 := by
        rw [compute_member_step_ok_inv hstep]
        rfl
      obtain ⟨t1, ht1⟩ := print_member_header_st_mono s.pos s.st kind thin m
        (step_mtime ut s m) (member_size kind thin m)
      refine ⟨t1 ++ t2, ?_⟩
      rw [ht2, hst, ht1, List.append_assoc]

theorem cmd_loop_lookup_mono (parse : List Nat → Option (List (List Nat)))
    (kind : ArchiveKind) (thin ut ns : Bool) (ms : List NewArchiveMember) (s s' : CMDState)
    (h : cmd_loop parse kind thin ut ns s ms = .ok s') {n : List Nat} {p : Nat}
    (hlk : lookupName s.st.member_names n = some p) :
    lookupName s'.st.member_names n = some p := by
  obtain ⟨t, ht⟩ := cmd_loop_names_mono parse kind thin ut ns ms s s' h
  rw [ht]
  exact lookupName_append_some hlk t

theorem cmd_loop_members_len (parse : List Nat → Option (List (List Nat)))
    (kind : ArchiveKind) (thin ut ns : Bool) :
    ∀ (ms : List NewArchiveMember) (s s' : CMDState),
      cmd_loop parse kind thin ut ns s ms = .ok s' →
      s'.members.length = s.members.length + ms.length := by
  intro ms
  induction ms with
  | nil =>
    intro s s' h
    simp only [cmd_loop] at h
    injection h with h2
    simp [h2]
  | cons m rest ih =>
    intro s s' h
    unfold cmd_loop at h
    cases hstep : compute_member_step parse kind thin ut ns s m with
    | error e => rw [hstep] at h; exact absurd h (by simp)
    | ok s1 =>
      rw [hstep] at h
      have hlen : s1.members.length = s.members.length + 1 := by
        rw [compute_member_step_ok_inv hstep]
        show (s.members ++ [_]).length = _
        simp
      rw [ih s1 s' h, hlen]
      simp only [List.length_cons]
      omega

theorem cmd_loop_append_ok (parse : List Nat → Option (List (List Nat))) (kind : ArchiveKind)
    (thin ut ns : Bool) (l2 : List NewArchiveMember) :
    ∀ (l1 : List NewArchiveMember) (s s1 : CMDState),
      cmd_loop parse kind thin ut ns s l1 = .ok s1 →
      cmd_loop parse kind thin ut ns s (l1 ++ l2) = cmd_loop parse kind thin ut ns s1 l2 := by
  intro l1
  induction l1 with
  | nil =>
    intro s s1 h1
    simp only [cmd_loop] at h1
    injection h1 with h2
    rw [List.nil_append, h2]
  | cons m rest ih =>
    intro s s1 h1
    unfold cmd_loop at h1
    rw [List.cons_append]
    show (match compute_member_step parse kind thin ut ns s m with
      | Except.error e => (Except.error e : Except ArchiveError CMDState)
      | Except.ok s2 => cmd_loop parse kind thin ut ns s2 (rest ++ l2)) =
      cmd_loop parse kind thin ut ns s1 l2
    cases hstep : compute_member_step parse kind thin ut ns s m with
    | error e => rw [hstep] at h1; exact absurd h1 (by simp)
    | ok sm =>
      rw [hstep] at h1
      show cmd_loop parse kind thin ut ns sm (rest ++ l2) = cmd_loop parse kind thin ut ns s1 l2
      exact ih sm s1 h1

theorem lookupName_mem_of_some {l : List (List Nat × Nat)} {n : List Nat} {p : Nat}
    (h : lookupName l n = some p) : n ∈ l.map Prod.fst := by
  by_contra hn
  rw [← lookupName_eq_none] at hn
  rw [h] at hn
  cases hn

theorem stInv_step {parse : List Nat → Option (List (List Nat))} {kind : ArchiveKind}
    {ut ns : Bool} {s : CMDState} {m : NewArchiveMember} {s1 : CMDState}
    (hstep : compute_member_step parse kind false ut ns s m = .ok s1)
    (hinv : stInv s.st) : stInv s1.st := by
  have hst : s1.st = (print_member_header s.pos s.st kind false m (step_mtime ut s m)
      (member_size kind false m)).2 := by
    rw [compute_member_step_ok_inv hstep]
    rfl
  by_cases hbsd : is_bsd_like kind = true
  · rw [hst]
    unfold print_member_header
    rw [if_pos hbsd]
    exact hinv
  · have hbsd2 : is_bsd_like kind = false := by simpa using hbsd
    rcases print_member_header_st_cases s.pos s.st kind m (step_mtime ut s m)
        (member_size kind false m) hbsd2 with ⟨_, heq⟩ | ⟨_, hcase⟩
    · rw [hst, heq]
      exact hinv
    · rcases hcase with ⟨p, _, heq, _⟩ | ⟨hnone, heq, _⟩
      · rw [hst, heq]
        exact hinv
      · rw [hst, heq]
        obtain ⟨htab, hnd⟩ := hinv
        constructor
        · show s.st.string_table ++ m.member_name ++ [47, 10] = _
          rw [htab]
          simp [List.flatten_append, List.append_assoc]
        · show ((s.st.member_names ++ [(m.member_name, s.st.string_table.length)]).map
            Prod.fst).Nodup
          rw [List.map_append, List.nodup_append]
          refine ⟨hnd, by simp, ?_⟩
          intro x hx hx2
          simp at hx2
          subst hx2
          exact (lookupName_eq_none.mp hnone) hx

theorem cmd_loop_stInv (parse : List Nat → Option (List (List Nat))) (kind : ArchiveKind)
    (ut ns : Bool) :
    ∀ (ms : List NewArchiveMember) (s s' : CMDState),
      cmd_loop parse kind false ut ns s ms = .ok s' → stInv s.st → stInv s'.st := by
  intro ms
  induction ms with
  | nil =>
    intro s s' h hinv
    simp only [cmd_loop] at h
    injection h with h2
    exact h2 ▸ hinv
  | cons m rest ih =>
    intro s s' h hinv
    unfold cmd_loop at h
    cases hstep : compute_member_step parse kind false ut ns s m with
    | error e => rw [hstep] at h; exact absurd h (by simp)
    | ok s1 =>
      rw [hstep] at h
      exact ih s1 s' h (stInv_step hstep hinv)

theorem step_qualifying {parse : List Nat → Option (List (List Nat))} {kind : ArchiveKind}
    {ut ns : Bool} {s : CMDState} {m : NewArchiveMember} {s1 : CMDState}
    (hbsd : is_bsd_like kind = false)
    (hust : use_string_table false m.member_name = true)
    (hstep : compute_member_step parse kind false ut ns s m = .ok s1) :
    ∃ p, lookupName s1.st.member_names m.member_name = some p
      ∧ s1.members = s.members ++ [⟨(step_syms parse ns false s m).1,
          [47] ++ padTo 15 (dec p) ++ print_rest_of_member_header (step_mtime ut s m)
            m.uid m.gid m.perms (member_size kind false m),
          member_data_bytes false m, member_pad_bytes kind false m⟩] := by
  have h1 := compute_member_step_ok_inv hstep
  have hst : s1.st = (print_member_header s.pos s.st kind false m (step_mtime ut s m)
      (member_size kind false m)).2 := by
    rw [h1]
    rfl
  have hmem : s1.members = s.members ++ [⟨(step_syms parse ns false s m).1,
      (print_member_header s.pos s.st kind false m (step_mtime ut s m)
        (member_size kind false m)).1,
      member_data_bytes false m, member_pad_bytes kind false m⟩] := by
    rw [h1]
    rfl
  rcases print_member_header_st_cases s.pos s.st kind m (step_mtime ut s m)
      (member_size kind false m) hbsd with ⟨hf, _⟩ | ⟨_, hcase⟩
  · rw [hust] at hf
    cases hf
  · rcases hcase with ⟨p, hlk, heq, hhdr⟩ | ⟨hnone, heq, hhdr⟩
    · refine ⟨p, ?_, ?_⟩
      · rw [hst, heq]
        exact hlk
      · rw [hmem, hhdr]
    · refine ⟨s.st.string_table.length, ?_, ?_⟩
      · rw [hst, heq]
        show lookupName (s.st.member_names ++ [(m.member_name, s.st.string_table.length)])
          m.member_name = _
        rw [lookupName_append_none hnone]
        simp [lookupName]
      · rw [hmem, hhdr]

theorem step_lookup_some {parse : List Nat → Option (List (List Nat))} {kind : ArchiveKind}
    {ut ns : Bool} {s : CMDState} {m : NewArchiveMember} {s1 : CMDState} {p : Nat}
    (hbsd : is_bsd_like kind = false)
    (hust : use_string_table false m.member_name = true)
    (hlk : lookupName s.st.member_names m.member_name = some p)
    (hstep : compute_member_step parse kind false ut ns s m = .ok s1) :
    s1.members = s.members ++ [⟨(step_syms parse ns false s m).1,
      [47] ++ padTo 15 (dec p) ++ print_rest_of_member_header (step_mtime ut s m)
        m.uid m.gid m.perms (member_size kind false m),
      member_data_bytes false m, member_pad_bytes kind false m⟩] := by
  have h1 := compute_member_step_ok_inv hstep
  have hmem : s1.members = s.members ++ [⟨(step_syms parse ns false s m).1,
      (print_member_header s.pos s.st kind false m (step_mtime ut s m)
        (member_size kind false m)).1,
      member_data_bytes false m, member_pad_bytes kind false m⟩] := by
    rw [h1]
    rfl
  rcases print_member_header_st_cases s.pos s.st kind m (step_mtime ut s m)
      (member_size kind false m) hbsd with ⟨hf, _⟩ | ⟨_, hcase⟩
  · rw [hust] at hf
    cases hf
  · rcases hcase with ⟨q, hlk2, _, hhdr⟩ | ⟨hnone, _, _⟩
    · rw [hlk] at hlk2
      injection hlk2 with hpq
      subst hpq
      rw [hmem, hhdr]
    · rw [hlk] at hnone
      cases hnone

theorem cmd_loop_ok_prefix (parse : List Nat → Option (List (List Nat)))
    (kind : ArchiveKind) (thin ut ns : Bool) :
    ∀ (l1 l2 : List NewArchiveMember) (s s' : CMDState),
      cmd_loop parse kind thin ut ns s (l1 ++ l2) = .ok s' →
      ∃ s1, cmd_loop parse kind thin ut ns s l1 = .ok s1 ∧
        cmd_loop parse kind thin ut ns s1 l2 = .ok s' := by
  intro l1
  induction l1 with
  | nil =>
    intro l2 s s' h
    exact ⟨s, rfl, by simpa using h⟩
  | cons m rest ih =>
    intro l2 s s' h
    rw [List.cons_append] at h
    unfold cmd_loop at h
    cases hstep : compute_member_step parse kind thin ut ns s m with
    | error e => rw [hstep] at h; exact absurd h (by simp)
    | ok sm =>
      rw [hstep] at h
      obtain ⟨s1, hA, hB⟩ := ih l2 sm s' h
      refine ⟨s1, ?_, hB⟩
      show (match compute_member_step parse kind thin ut ns s m with
        | Except.error e => (Except.error e : Except ArchiveError CMDState)
        | Except.ok s2 => cmd_loop parse kind thin ut ns s2 rest) = .ok s1
      rw [hstep]
      exact hA

theorem header_ref_take16 (p : Nat) (r : List Nat) :
    ([47] ++ padTo 15 (dec p) ++ r).take 16 = [47] ++ (padTo 15 (dec p)).take 15 := by
  have h15 : 15 ≤ (padTo 15 (dec p)).length := by
    rw [padTo_length]
    omega
  rw [List.append_assoc, List.singleton_append, List.take_succ_cons,
    List.take_append_of_le_length h15, List.singleton_append]

theorem print_member_header_thin_gnu (pos : Nat) (st : STState) (kind : ArchiveKind)
    (m : NewArchiveMember) (mtime size : Nat) (hbsd : is_bsd_like kind = false) :
    (print_member_header pos st kind true m mtime size).2 =
      ⟨st.string_table ++ m.member_name ++ [47, 10], st.member_names⟩ := by
  simp [print_member_header, hbsd, use_string_table]

theorem cmd_loop_thin_table (parse : List Nat → Option (List (List Nat)))
    (kind : ArchiveKind) (ut ns : Bool) (hbsd : is_bsd_like kind = false) :
    ∀ (ms : List NewArchiveMember) (s s' : CMDState),
      cmd_loop parse kind true ut ns s ms = .ok s' →
      s'.st.string_table = s.st.string_table ++
        (ms.map (fun m => m.member_name ++ [47, 10])).flatten := by
  intro ms
  induction ms with
  | nil =>
    intro s s' h
    simp only [cmd_loop] at h
    injection h with h2
    simp [h2]
  | cons m rest ih =>
    intro s s' h
    unfold cmd_loop at h
    cases hstep : compute_member_step parse kind true ut ns s m with
    | error e => rw [hstep] at h; exact absurd h (by simp)
    | ok s1 =>
      rw [hstep] at h
      have hst : s1.st = ⟨s.st.string_table ++ m.member_name ++ [47, 10],
          s.st.member_names⟩ := by
        rw [compute_member_step_ok_inv hstep]
        show (print_member_header s.pos s.st kind true m (step_mtime ut s m)
          (member_size kind true m)).2 = _
        exact print_member_header_thin_gnu s.pos s.st kind m (step_mtime ut s m)
          (member_size kind true m) hbsd
      rw [ih s1 s' h, hst]
      simp [List.append_assoc]

/-- C8: in non-thin GNU mode, two members with the same string-table-qualifying
name reference the same decimal string table offset (their headers agree on the
first 16 bytes), and the string table holds exactly one `name/` record per
distinct inserted name (in particular one for the shared name); in thin mode
every member appends a fresh record, repeated names included. -/
theorem c8_string_table_dedup (parse : List Nat → Option (List (List Nat)))
    (kind : ArchiveKind) (det ns : Bool) (hg : kind = .Gnu ∨ kind = .Gnu64) :
    (∀ (ms l1 l2 l3 : List NewArchiveMember) (a b : NewArchiveMember)
      (d : List MemberData) (st sy : List Nat),
      ms = l1 ++ a :: l2 ++ b :: l3 →
      a.member_name = b.member_name →
      use_string_table false a.member_name = true →
      compute_member_data parse kind false det ns ms = .ok (d, st, sy) →
      (∃ e1 mdA e2 mdB e3 p, d = e1 ++ mdA :: e2 ++ mdB :: e3
        ∧ e1.length = l1.length ∧ e2.length = l2.length
        ∧ mdA.header.take 16 = [47] ++ (padTo 15 (dec p)).take 15
        ∧ mdB.header.take 16 = mdA.header.take 16)
      ∧ (∃ names : List (List Nat), names.Nodup
          ∧ st = (names.map (fun n => n ++ [47, 10])).flatten
          ∧ a.member_name ∈ names))
    ∧ (∀ (ms : List NewArchiveMember) (d : List MemberData) (st sy : List Nat),
      compute_member_data parse kind true det ns ms = .ok (d, st, sy) →
      st = (ms.map (fun m => m.member_name ++ [47, 10])).flatten) := by
  have hbsd : is_bsd_like kind = false := by
    rcases hg with h | h <;> simp [h, is_bsd_like]
  constructor
  · intro ms l1 l2 l3 a b d st sy hms hab hust hcmd
    obtain ⟨s, hl, hr⟩ := compute_member_data_inv hcmd
    have hd : d = s.members := by
      have := congrArg (fun r => r.1) hr
      simpa using this
    have hstw : st = s.st.string_table := by
      have := congrArg (fun r => r.2.1) hr
      simpa using this
    subst hms
    rw [List.append_assoc, List.cons_append] at hl
    obtain ⟨sA, hA, hrest⟩ := cmd_loop_ok_prefix parse kind false (det && is_darwin kind) ns
      l1 (a :: (l2 ++ b :: l3)) _ s hl
    unfold cmd_loop at hrest
    cases hstepa : compute_member_step parse kind false (det && is_darwin kind) ns sA a with
    | error e => rw [hstepa] at hrest; exact absurd hrest (by simp)
    | ok sa =>
      rw [hstepa] at hrest
      obtain ⟨p, hlkA, hmemA⟩ := step_qualifying hbsd hust hstepa
      obtain ⟨sB, hB, hrest2⟩ := cmd_loop_ok_prefix parse kind false (det && is_darwin kind)
        ns l2 (b :: l3) sa s hrest
      have hlkB : lookupName sB.st.member_names b.member_name = some p := by
        rw [← hab]
        exact cmd_loop_lookup_mono parse kind false (det && is_darwin kind) ns l2 sa sB hB hlkA
      unfold cmd_loop at hrest2
      cases hstepb : compute_member_step parse kind false (det && is_darwin kind) ns sB b with
      | error e => rw [hstepb] at hrest2; exact absurd hrest2 (by simp)
      | ok sb =>
        rw [hstepb] at hrest2
        have hustB : use_string_table false b.member_name = true := by
          rw [← hab]
          exact hust
        have hmemB := step_lookup_some hbsd hustB hlkB hstepb
        obtain ⟨t3, ht3⟩ := cmd_loop_members_mono parse kind false (det && is_darwin kind)
          ns l3 sb s hrest2
        obtain ⟨t2, ht2⟩ := cmd_loop_members_mono parse kind false (det && is_darwin kind)
          ns l2 sa sB hB
        constructor
        · have hlenA : sA.members.length = l1.length := by
            have := cmd_loop_members_len parse kind false (det && is_darwin kind) ns l1 _ sA hA
            simpa using this
          have hlent2 : t2.length = l2.length := by
            have hlenB := cmd_loop_members_len parse kind false (det && is_darwin kind) ns
              l2 sa sB hB
            have := congrArg List.length ht2
            simp at this
            omega
          refine ⟨sA.members, ⟨(step_syms parse ns false sA a).1,
            [47] ++ padTo 15 (dec p) ++ print_rest_of_member_header
              (step_mtime (det && is_darwin kind) sA a) a.uid a.gid a.perms
              (member_size kind false a),
            member_data_bytes false a, member_pad_bytes kind false a⟩, t2,
            ⟨(step_syms parse ns false sB b).1,
            [47] ++ padTo 15 (dec p) ++ print_rest_of_member_header
              (step_mtime (det && is_darwin kind) sB b) b.uid b.gid b.perms
              (member_size kind false b),
            member_data_bytes false b, member_pad_bytes kind false b⟩, t3, p,
            ?_, hlenA, hlent2, ?_, ?_⟩
          · rw [hd, ht3, hmemB, ht2, hmemA]
            simp [List.append_assoc]
          · exact header_ref_take16 p _
          · rw [header_ref_take16 p _, header_ref_take16 p _]
        · have hinv : stInv s.st := by
            refine cmd_loop_stInv parse kind (det && is_darwin kind) ns _ _ s hl ?_
            exact ⟨rfl, List.nodup_nil⟩
          have hlkS : lookupName s.st.member_names a.member_name = some p := by
            have h1 : lookupName sb.st.member_names a.member_name = some p := by
              obtain ⟨tb, htb⟩ := print_member_header_st_mono sB.pos sB.st kind false b
                (step_mtime (det && is_darwin kind) sB b) (member_size kind false b)
              have hsb : sb.st = (print_member_header sB.pos sB.st kind false b
                  (step_mtime (det && is_darwin kind) sB b) (member_size kind false b)).2 := by
                rw [compute_member_step_ok_inv hstepb]
                rfl
              rw [hsb, htb, hab]
              exact lookupName_append_some hlkB tb
            exact cmd_loop_lookup_mono parse kind false (det && is_darwin kind) ns l3 sb s
              hrest2 h1
          refine ⟨s.st.member_names.map Prod.fst, hinv.2, ?_, ?_⟩
          · rw [hstw, hinv.1, List.map_map]
            rfl
          · exact lookupName_mem_of_some hlkS
  · intro ms d st sy hcmd
    obtain ⟨s, hl, hr⟩ := compute_member_data_inv hcmd
    have hstw : st = s.st.string_table := by
      have := congrArg (fun r => r.2.1) hr
      simpa using this
    have := cmd_loop_thin_table parse kind (det && is_darwin kind) ns hbsd ms _ s hl
    rw [hstw, this]
    rfl

/-- Witness for C8: two members sharing a 16-byte name in non-thin GNU mode
share the string table offset and the table has a single record. -/
theorem c8_string_table_dedup_witness :
    (∃ e1 mdA e2 mdB e3 p,
      ((compute_member_data (fun _ => none) .Gnu false true false
          [⟨[], List.replicate 16 97, 0, 0, 0, 0⟩,
            ⟨[], List.replicate 16 97, 1, 0, 0, 0⟩]).toOption.getD ([], [], [])).1 =
        e1 ++ mdA :: e2 ++ mdB :: e3
      ∧ e1.length = 0 ∧ e2.length = 0
      ∧ mdA.header.take 16 = [47] ++ (padTo 15 (dec p)).take 15
      ∧ mdB.header.take 16 = mdA.header.take 16)
    ∧ (∃ names : List (List Nat), names.Nodup
        ∧ ((compute_member_data (fun _ => none) .Gnu false true false
            [⟨[], List.replicate 16 97, 0, 0, 0, 0⟩,
              ⟨[], List.replicate 16 97, 1, 0, 0, 0⟩]).toOption.getD ([], [], [])).2.1 =
          (names.map (fun n => n ++ [47, 10])).flatten
        ∧ List.replicate 16 97 ∈ names) :=
  (c8_string_table_dedup (fun _ => none) .Gnu true false (Or.inl rfl)).1
    [⟨[], List.replicate 16 97, 0, 0, 0, 0⟩, ⟨[], List.replicate 16 97, 1, 0, 0, 0⟩]
    [] [] [] ⟨[], List.replicate 16 97, 0, 0, 0, 0⟩ ⟨[], List.replicate 16 97, 1, 0, 0, 0⟩
    _ _ _ rfl rfl (by decide) rfl

/-! ### C6: record alignment -/

theorem offset_to_alignment_two (v : Nat) : (v + offset_to_alignment v 2) % 2 = 0 := by
  unfold offset_to_alignment
  omega

theorem offset_to_alignment_eight (v : Nat) : (v + offset_to_alignment v 8) % 8 = 0 := by
  unfold offset_to_alignment
  omega

theorem offset_to_alignment_lt_eight (v : Nat) : offset_to_alignment v 8 ≤ 7 := by
  unfold offset_to_alignment
  omega

theorem offset_to_alignment_two_of_even {v : Nat} (h : v % 2 = 0) :
    offset_to_alignment v 2 = 0 := by
  unfold offset_to_alignment
  omega

theorem compute_member_step_ok_size {parse : List Nat → Option (List (List Nat))}
    {kind : ArchiveKind} {thin ut ns : Bool} {s : CMDState} {m : NewArchiveMember}
    {s1 : CMDState} (h : compute_member_step parse kind thin ut ns s m = .ok s1) :
    member_size kind thin m ≤ MAX_MEMBER_SIZE := by
  unfold compute_member_step at h
  by_cases hc : member_size kind thin m > MAX_MEMBER_SIZE
  · rw [if_pos hc] at h
    exact absurd h (by simp)
  · omega

theorem darwin_data_pad_eight {kind : ArchiveKind} (thin : Bool) (m : NewArchiveMember)
    (hd : is_darwin kind = true) :
    ((member_data_bytes thin m).length + member_padding_of kind thin m) % 8 = 0 := by
  unfold member_padding_of
  rw [if_pos hd]
  exact offset_to_alignment_eight _

theorem member_pad_bytes_darwin {kind : ArchiveKind} (thin : Bool) (m : NewArchiveMember)
    (hd : is_darwin kind = true) :
    ((member_data_bytes thin m).length + (member_pad_bytes kind thin m).length) % 8 = 0 := by
  unfold member_pad_bytes
  rw [List.length_replicate,
    offset_to_alignment_two_of_even (by
      have := darwin_data_pad_eight thin m hd
      omega)]
  have := darwin_data_pad_eight thin m hd
  omega

theorem member_data_pad_even (kind : ArchiveKind) (thin : Bool) (m : NewArchiveMember) :
    ((member_data_bytes thin m).length + (member_pad_bytes kind thin m).length) % 2 = 0 := by
  unfold member_pad_bytes
  rw [List.length_replicate]
  have := offset_to_alignment_two ((member_data_bytes thin m).length +
    member_padding_of kind thin m)
  omega

theorem gnu_small_header_len {name : List Nat} (hlt : name.length < 16) {mt u g pm sz : Nat}
    (hmt : (dec mt).length ≤ 12) (hpm : (oct pm).length ≤ 8) (hsz : (dec sz).length ≤ 10) :
    (print_gnu_small_member_header name mt u g pm sz).length = 60 := by
  have hfit : (name ++ [47]).length ≤ 16 := by
    simp only [List.length_append, List.length_cons, List.length_nil]
    omega
  unfold print_gnu_small_member_header
  rw [List.length_append, print_rest_length hmt hpm hsz, padTo_length_of_le hfit]

theorem gnu_long_header_len {q : Nat} (hq : (dec q).length ≤ 15) {mt u g pm sz : Nat}
    (hmt : (dec mt).length ≤ 12) (hpm : (oct pm).length ≤ 8) (hsz : (dec sz).length ≤ 10) :
    ([47] ++ padTo 15 (dec q) ++ print_rest_of_member_header mt u g pm sz).length = 60 := by
  simp only [List.length_append, List.length_cons, List.length_nil]
  rw [print_rest_length hmt hpm hsz, padTo_length_of_le hq]

theorem bsd_header_len {pos : Nat} {name : List Nat} {mt u g pm sz : Nat}
    (hmt : (dec mt).length ≤ 12) (hpm : (oct pm).length ≤ 8)
    (hsz : (dec (name.length + offset_to_alignment (pos + 60 + name.length) 8 + sz)).length
      ≤ 10)
    (hnwp : (dec (name.length + offset_to_alignment (pos + 60 + name.length) 8)).length
      ≤ 13) :
    (print_bsd_member_header pos name mt u g pm sz).length =
      60 + name.length + offset_to_alignment (pos + 60 + name.length) 8 := by
  simp only [print_bsd_member_header, List.length_append, List.length_replicate,
    List.length_cons, List.length_nil]
  rw [print_rest_length hmt hpm hsz, padTo_length_of_le hnwp]

theorem lookupName_mem_pair {l : List (List Nat × Nat)} {n : List Nat} {p : Nat}
    (h : lookupName l n = some p) : (n, p) ∈ l := by
  induction l with
  | nil => simp [lookupName] at h
  | cons kv rest ih =>
    obtain ⟨k, v⟩ := kv
    by_cases hk : k = n
    · subst hk
      rw [lookupName, if_pos rfl] at h
      injection h with h2
      subst h2
      simp
    · rw [lookupName, if_neg hk] at h
      exact List.mem_cons_of_mem _ (ih h)

/-- Offsets recorded in the deduplication map point into the string table. -/
def offInv (st : STState) : Prop :=
  ∀ kv ∈ st.member_names, kv.2 ≤ st.string_table.length

theorem print_member_header_table_mono (pos : Nat) (st : STState) (kind : ArchiveKind)
    (thin : Bool) (m : NewArchiveMember) (mtime size : Nat) :
    ∃ t, (print_member_header pos st kind thin m mtime size).2.string_table =
      st.string_table ++ t := by
  unfold print_member_header
  by_cases hbsd : is_bsd_like kind = true
  · rw [if_pos hbsd]
    exact ⟨[], by simp⟩
  · rw [if_neg hbsd]
    by_cases hust : use_string_table thin m.member_name = true
    · rw [if_pos hust]
      by_cases ht : thin = true
      · subst ht
        rw [if_pos rfl]
        exact ⟨m.member_name ++ [47, 10], by simp⟩
      · simp only [Bool.not_eq_true] at ht
        subst ht
        rw [if_neg (by simp)]
        cases hlk : lookupName st.member_names m.member_name with
        | some p => exact ⟨[], by simp⟩
        | none => exact ⟨m.member_name ++ [47, 10], by simp⟩
    · rw [if_neg hust]
      exact ⟨[], by simp⟩

theorem offInv_print_member_header (pos : Nat) (st : STState) (kind : ArchiveKind)
    (thin : Bool) (m : NewArchiveMember) (mtime size : Nat) (hinv : offInv st) :
    offInv (print_member_header pos st kind thin m mtime size).2 := by
  unfold print_member_header
  by_cases hbsd : is_bsd_like kind = true
  · rw [if_pos hbsd]
    exact hinv
  · rw [if_neg hbsd]
    by_cases hust : use_string_table thin m.member_name = true
    · rw [if_pos hust]
      by_cases hthin : thin = true
      · subst hthin
        rw [if_pos rfl]
        intro kv hkv
        have := hinv kv hkv
        simp only [List.length_append]
        omega
      · simp only [Bool.not_eq_true] at hthin
        subst hthin
        rw [if_neg (by simp)]
        cases hlk : lookupName st.member_names m.member_name with
        | some p => exact hinv
        | none =>
          intro kv hkv
          simp only [List.length_append]
          rcases List.mem_append.mp hkv with hold | hnew
          · have := hinv kv hold
            omega
          · simp only [List.mem_singleton] at hnew
            subst hnew
            omega
    · rw [if_neg hust]
      exact hinv

theorem cmd_loop_table_mono (parse : List Nat → Option (List (List Nat)))
    (kind : ArchiveKind) (thin ut ns : Bool) :
    ∀ (ms : List NewArchiveMember) (s s' : CMDState),
      cmd_loop parse kind thin ut ns s ms = .ok s' →
      ∃ t, s'.st.string_table = s.st.string_table ++ t := by
  intro ms
  induction ms with
  | nil =>
    intro s s' h
    simp only [cmd_loop] at h
    injection h with h2
    exact ⟨[], by simp [h2]⟩
  | cons m rest ih =>
    intro s s' h
    unfold cmd_loop at h
    cases hstep : compute_member_step parse kind thin ut ns s m with
    | error e => rw [hstep] at h; exact absurd h (by simp)
    | ok s1 =>
      rw [hstep] at h
      obtain ⟨t2, ht2⟩ := ih s1 s' h
      have hst : s1.st = (print_member_header s.pos s.st kind thin m (step_mtime ut s m)
          (member_size kind thin m)).2 := by
        rw [compute_member_step_ok_inv hstep]
        rfl
      obtain ⟨t1, ht1⟩ := print_member_header_table_mono s.pos s.st kind thin m
        (step_mtime ut s m) (member_size kind thin m)
      refine ⟨t1 ++ t2, ?_⟩
      rw [ht2, hst, ht1, List.append_assoc]

theorem cmd_loop_offInv (parse : List Nat → Option (List (List Nat)))
    (kind : ArchiveKind) (thin ut ns : Bool) :
    ∀ (ms : List NewArchiveMember) (s s' : CMDState),
      cmd_loop parse kind thin ut ns s ms = .ok s' → offInv s.st → offInv s'.st := by
  intro ms
  induction ms with
  | nil =>
    intro s s' h hinv
    simp only [cmd_loop] at h
    injection h with h2
    exact h2 ▸ hinv
  | cons m rest ih =>
    intro s s' h hinv
    unfold cmd_loop at h
    cases hstep : compute_member_step parse kind thin ut ns s m with
    | error e => rw [hstep] at h; exact absurd h (by simp)
    | ok s1 =>
      rw [hstep] at h
      refine ih s1 s' h ?_
      have hst : s1.st = (print_member_header s.pos s.st kind thin m (step_mtime ut s m)
          (member_size kind thin m)).2 := by
        rw [compute_member_step_ok_inv hstep]
        rfl
      rw [hst]
      exact offInv_print_member_header _ _ _ _ _ _ _ hinv

theorem print_member_header_even (pos : Nat) (st : STState) (kind : ArchiveKind)
    (thin : Bool) (m : NewArchiveMember) (mt sz : Nat)
    (hpos : pos % 2 = 0)
    (hmt : (dec mt).length ≤ 12) (hpm : (oct m.perms).length ≤ 8)
    (hsz : (dec sz).length ≤ 10)
    (hbsdsz : is_bsd_like kind = true → m.member_name.length + 8 + sz < 10 ^ 10)
    (hq : st.string_table.length < 10 ^ 10)
    (hoff : offInv st) :
    (print_member_header pos st kind thin m mt sz).1.length % 2 = 0 := by
  unfold print_member_header
  by_cases hbsd : is_bsd_like kind = true
  · rw [if_pos hbsd]
    have hlt8 := offset_to_alignment_lt_eight (pos + 60 + m.member_name.length)
    have hb := hbsdsz hbsd
    rw [bsd_header_len hmt hpm (dec_length_le (by omega) (by norm_num))
      (dec_length_le (by omega) (by norm_num))]
    have h8 := offset_to_alignment_eight (pos + 60 + m.member_name.length)
    omega
  · rw [if_neg hbsd]
    by_cases hust : use_string_table thin m.member_name = true
    · rw [if_pos hust]
      by_cases hthin : thin = true
      · subst hthin
        rw [if_pos rfl, gnu_long_header_len (dec_length_le (by omega) (by norm_num))
          hmt hpm hsz]
      · simp only [Bool.not_eq_true] at hthin
        subst hthin
        rw [if_neg (by simp)]
        cases hlk : lookupName st.member_names m.member_name with
        | some p =>
          have hp : p ≤ st.string_table.length := hoff _ (lookupName_mem_pair hlk)
          rw [gnu_long_header_len (dec_length_le (by omega) (by norm_num)) hmt hpm hsz]
        | none =>
          rw [gnu_long_header_len (dec_length_le (by omega) (by norm_num)) hmt hpm hsz]
    · rw [if_neg hust]
      simp only [use_string_table, Bool.or_eq_true, decide_eq_true_eq, not_or] at hust
      rw [gnu_small_header_len (by omega) hmt hpm hsz]

theorem countName_le_length (ms : List NewArchiveMember) (n : List Nat) :
    countName ms n ≤ ms.length :=
  List.length_filter_le _ _

theorem cmd_loop_records_aligned (parse : List Nat → Option (List (List Nat)))
    (kind : ArchiveKind) (thin ns ut : Bool)
    (full : List NewArchiveMember)
    (hfit : ∀ m ∈ full, (dec m.mtime).length ≤ 12 ∧ (oct m.perms).length ≤ 8 ∧
      (is_bsd_like kind = true →
        m.member_name.length + 8 + member_size kind thin m < 10 ^ 10))
    (hflen : full.length < 10 ^ 11)
    (TB : Nat) (hTB : TB < 10 ^ 10) :
    ∀ (l done : List NewArchiveMember) (s s' : CMDState),
      done ++ l = full →
      cmd_loop parse kind thin ut ns s l = .ok s' →
      s.pos % 2 = 0 →
      (ut = true → s.counts =
        (done.foldl (fun acc x => bumpCount acc x.member_name) (initCounts full))) →
      offInv s.st →
      s'.st.string_table.length ≤ TB →
      (∀ md ∈ s.members, record_len md % 2 = 0 ∧
        (is_darwin kind = true → (md.data.length + md.padding.length) % 8 = 0)) →
      ∀ md ∈ s'.members, record_len md % 2 = 0 ∧
        (is_darwin kind = true → (md.data.length + md.padding.length) % 8 = 0) := by
  intro l
  induction l with
  | nil =>
    intro done s s' _ h _ _ _ _ hmem
    simp only [cmd_loop] at h
    injection h with h2
    exact h2 ▸ hmem
  | cons m rest ih =>
    intro done s s' hfull h hpos hc hoff htb hmem
    unfold cmd_loop at h
    cases hstep : compute_member_step parse kind thin ut ns s m with
    | error e => rw [hstep] at h; exact absurd h (by simp)
    | ok s1 =>
      rw [hstep] at h
      have hmfull : m ∈ full := hfull ▸ List.mem_append_right _ (List.mem_cons_self m rest)
      obtain ⟨hfm, hfp, hfb⟩ := hfit m hmfull
      have hs1 := compute_member_step_ok_inv hstep
      -- the mtime printed for this member fits in 12 characters
      have hmt : (dec (step_mtime ut s m)).length ≤ 12 := by
        cases hut : ut with
        | false => simpa [step_mtime] using hfm
        | true =>
          have hcs := hc hut
          have hdlen : done.length + 1 ≤ full.length := by
            have := congrArg List.length hfull
            simp only [List.length_append, List.length_cons] at this
            omega
          have hval : step_mtime true s m =
              min (countName full m.member_name) 1 + countName done m.member_name + 1 - 1 := by
            simp only [step_mtime, step_counts, reduceIte]
            rw [hcs, getCount_bumpCount, getCount_foldl_bump, getCount_initCounts]
            simp
          refine dec_length_le ?_ (by norm_num)
          rw [hval]
          have := countName_le_length done m.member_name
          omega
      have hsz : (dec (member_size kind thin m)).length ≤ 10 := by
        refine dec_length_le ?_ (by norm_num)
        have := compute_member_step_ok_size hstep
        unfold MAX_MEMBER_SIZE at this
        omega
      -- the final string table bounds every offset printed at this step
      have hq : s.st.string_table.length < 10 ^ 10 := by
        obtain ⟨t1, ht1⟩ := print_member_header_table_mono s.pos s.st kind thin m
          (step_mtime ut s m) (member_size kind thin m)
        obtain ⟨t2, ht2⟩ := cmd_loop_table_mono parse kind thin ut ns rest s1 s' h
        have h1 : s1.st.string_table = s.st.string_table ++ t1 := by
          rw [hs1]
          exact ht1
        have : s'.st.string_table.length =
            s.st.string_table.length + t1.length + t2.length := by
          rw [ht2, h1]
          simp only [List.length_append]
        omega
      have hhdr : (print_member_header s.pos s.st kind thin m
          (step_mtime ut s m) (member_size kind thin m)).1.length % 2 = 0 :=
        print_member_header_even s.pos s.st kind thin m _ _ hpos hmt hfp hsz
          (fun hb => hfb hb) hq hoff
      have hdp := member_data_pad_even kind thin m
      -- apply the induction hypothesis to the tail
      refine ih (done ++ [m]) s1 s' (by rw [List.append_assoc]; exact hfull) h ?_ ?_ ?_ htb ?_
      · rw [hs1]
        show (s.pos + (print_member_header s.pos s.st kind thin m
          (step_mtime ut s m) (member_size kind thin m)).1.length +
          (member_data_bytes thin m).length + (member_pad_bytes kind thin m).length) % 2 = 0
        omega
      · intro hut
        subst hut
        rw [hs1]
        show step_counts true s m = _
        rw [step_counts, hc rfl]
        simp [List.foldl_append]
      · rw [hs1]
        show offInv (print_member_header s.pos s.st kind thin m
          (step_mtime ut s m) (member_size kind thin m)).2
        exact offInv_print_member_header _ _ _ _ _ _ _ hoff
      · rw [hs1]
        intro md hmd
        have hmd2 : md ∈ s.members ++ [(⟨(step_syms parse ns thin s m).1,
            (print_member_header s.pos s.st kind thin m (step_mtime ut s m)
              (member_size kind thin m)).1,
            member_data_bytes thin m, member_pad_bytes kind thin m⟩ : MemberData)] := hmd
        rcases List.mem_append.mp hmd2 with hold | hnew
        · exact hmem md hold
        · simp only [List.mem_singleton] at hnew
          subst hnew
          refine ⟨?_, fun hd => member_pad_bytes_darwin thin m hd⟩
          show ((print_member_header s.pos s.st kind thin m
            (step_mtime ut s m) (member_size kind thin m)).1.length +
            (member_data_bytes thin m).length + (member_pad_bytes kind thin m).length) % 2 = 0
          omega

theorem offset_to_alignment_two_le (v : Nat) : offset_to_alignment v 2 ≤ 1 := by
  unfold offset_to_alignment
  omega

/-- C6 counterexample: the archive is produced successfully, yet the single
member record has odd total length (61 bytes): the 13-digit mtime
1000000000000 overflows the 12-character header field, so the header is 61
bytes instead of 60 and nothing re-aligns the record. -/
theorem c6_counterexample :
    (compute_member_data (fun _ => none) .Gnu false true false
        [⟨[], [97], 1000000000000, 0, 0, 0⟩]).map
      (fun r => r.1.map (fun md => record_len md % 2)) = .ok [1] := by
  rfl

/-- C6 (amended): in a successfully produced archive, provided every printed
header field fits its fixed-width slot — the member's mtime needs at most 12
characters, its octal permissions at most 8, on BSD-like kinds the embedded
name plus alignment padding plus size stays below 10^10, the member list has
fewer than 10^11 entries (bounding Darwin synthetic mtimes), and the long-name
string table stays below 10^10 bytes — every member record (header + payload
+ padding) has even length, and on Darwin kinds the payload plus internal
padding is additionally a multiple of 8; the long-name pseudo-member record is
even as well. -/
theorem c6_even_member_records (parse : List Nat → Option (List (List Nat)))
    (kind : ArchiveKind) (thin det ns : Bool) (ms : List NewArchiveMember)
    (d : List MemberData) (st sy : List Nat)
    (_hk : writable kind = true)
    (hcmd : compute_member_data parse kind thin det ns ms = .ok (d, st, sy))
    (hfit : ∀ m ∈ ms, (dec m.mtime).length ≤ 12 ∧ (oct m.perms).length ≤ 8 ∧
      (is_bsd_like kind = true →
        m.member_name.length + 8 + member_size kind thin m < 10 ^ 10))
    (hlen : ms.length < 10 ^ 11)
    (hst : st.length + 1 < 10 ^ 10) :
    (∀ md ∈ d, record_len md % 2 = 0 ∧
      (is_darwin kind = true → (md.data.length + md.padding.length) % 8 = 0)) ∧
    record_len (compute_string_table st) % 2 = 0 := by
  unfold compute_member_data at hcmd
  cases hloop : cmd_loop parse kind thin (det && is_darwin kind) ns
      ⟨0, ⟨[], []⟩, [], false,
        if det && is_darwin kind then initCounts ms else [], []⟩ ms with
  | error e =>
    rw [hloop] at hcmd
    exact absurd hcmd (by simp)
  | ok s =>
    rw [hloop] at hcmd
    injection hcmd with h2
    injection h2 with ha h3
    injection h3 with hb hc2
    have hd : d = s.members := ha.symm
    have hstq : st = s.st.string_table := hb.symm
    constructor
    · intro md hmd
      refine cmd_loop_records_aligned parse kind thin ns (det && is_darwin kind) ms hfit
        hlen st.length (by omega) ms [] _ s (by simp) hloop (by simp) ?_ ?_
        (by rw [hstq]) (by simp) md (hd ▸ hmd)
      · intro hut
        show (if det && is_darwin kind then initCounts ms else []) = _
        rw [if_pos hut]
        simp
      · intro kv hkv
        simp only [List.not_mem_nil] at hkv
    · have hdec : (dec (st.length + offset_to_alignment st.length 2)).length ≤ 10 := by
        refine dec_length_le ?_ (by norm_num)
        have := offset_to_alignment_two_le st.length
        omega
      have hpar := offset_to_alignment_two st.length
      simp only [compute_string_table, record_len, List.length_append, List.length_cons,
        List.length_nil]
      rw [padTo_length_of_le (by norm_num), padTo_length_of_le hdec]
      by_cases hp : offset_to_alignment st.length 2 = 0
      · rw [if_neg (by simp [hp])]
        simp only [List.length_nil]
        omega
      · rw [if_pos (by simp [hp])]
        simp only [List.length_cons, List.length_nil]
        have := offset_to_alignment_two_le st.length
        omega

/-- Witness for C6 on a one-member GNU archive with in-range fields. -/
theorem c6_even_member_records_witness :
    (∀ md ∈ ((compute_member_data (fun _ => none) .Gnu false true false
        [⟨[104, 105], [97], 5, 7, 9, 420⟩]).toOption.getD ([], [], [])).1,
      record_len md % 2 = 0 ∧ (is_darwin .Gnu = true →
        (md.data.length + md.padding.length) % 8 = 0)) ∧
    record_len (compute_string_table
      ((compute_member_data (fun _ => none) .Gnu false true false
        [⟨[104, 105], [97], 5, 7, 9, 420⟩]).toOption.getD ([], [], [])).2.1) % 2 = 0 :=
  c6_even_member_records (fun _ => none) .Gnu false true false
    [⟨[104, 105], [97], 5, 7, 9, 420⟩]
    ((compute_member_data (fun _ => none) .Gnu false true false
        [⟨[104, 105], [97], 5, 7, 9, 420⟩]).toOption.getD ([], [], [])).1
    ((compute_member_data (fun _ => none) .Gnu false true false
        [⟨[104, 105], [97], 5, 7, 9, 420⟩]).toOption.getD ([], [], [])).2.1
    ((compute_member_data (fun _ => none) .Gnu false true false
        [⟨[104, 105], [97], 5, 7, 9, 420⟩]).toOption.getD ([], [], [])).2.2
    rfl rfl (by decide) (by norm_num) (by decide)

end ArWriter
